import Mathlib

/-!
InteractionPenalty (src/treelearner/interaction_penalty.h)

A shallow embedding of the `LightGBM::InteractionPenalty` class.

* `int` feature identifiers are `CInt`, the 32-bit two's complement integers; the class
  never does arithmetic on them, it only compares them with `<`.
* `std::set<int>` is embedded as its strictly ascending element sequence
  (`IntSet`): this is what iterating from `begin()` to `end()` yields, and it is
  all the class ever observes of a set (`insert(..).second`, `size()`,
  `empty()`, `clear()`, and the iterator range handed to `std::includes`).
* `std::vector<std::set<int>>` is a `List IntSet`, `push_back` appends at the end.
* `double` is IEEE-754 binary64 (`Double`): NaN, the two infinities, and the finite
  values, each finite value held exactly as a sign and a whole number of units of
  `2^-1074`. `penalty_ * tree_features.size()` is the conversion of the size to `double`
  followed by one multiplication rounded to nearest, ties to even.
* `mutex_` is not part of the sequential state and is left out; every method is
  one atomic step on the state.
-/

namespace LightGBM

/-! ## `int` and `std::set<int>` -/

/-- A C++ `int`: a 32-bit two's complement integer. -/
structure CInt where
  val : Int
  inRange : -2147483648 ≤ val ∧ val ≤ 2147483647
deriving DecidableEq

/-- Conversion of an integer to `int`: the value modulo `2^32` in the range of `int`
(the identity on every value that is in range). -/
def CInt.wrap (x : Int) : CInt :=
  ⟨(x + 2147483648) % 4294967296 - 2147483648, by omega⟩

instance (n : Nat) : OfNat CInt n := ⟨CInt.wrap n⟩

instance : Neg CInt := ⟨fun x => CInt.wrap (-x.val)⟩

/-- The element sequence of a `std::set<int>`: `int` values in strictly ascending order. -/
structure IntSet where
  elems : List Int
  ascending : elems.Pairwise (· < ·)
  inRange : ∀ x ∈ elems, -2147483648 ≤ x ∧ x ≤ 2147483647
deriving DecidableEq

/-- Ordered insertion of `x` into an ascending sequence, using only `<` as `std::set`
does. The second component is `true` when `x` was inserted and `false` when an
equivalent key (neither `x < y` nor `y < x`) was already present. -/
def insertAscending (x : Int) : List Int → List Int × Bool
  | [] => ([x], true)
  | y :: ys =>
    if x < y then (x :: y :: ys, true)
    else if y < x then (y :: (insertAscending x ys).1, (insertAscending x ys).2)
    else (y :: ys, false)

theorem mem_insertAscending (x z : Int) (l : List Int) :
    z ∈ (insertAscending x l).1 ↔ z = x ∨ z ∈ l := by
  induction l with
  | nil => simp [insertAscending]
  | cons y ys ih =>
    unfold insertAscending
    by_cases h1 : x < y
    · simp [h1]
    · by_cases h2 : y < x
      · simp only [h1, h2, if_true, if_false, List.mem_cons, ih]
        tauto
      · have hxy : x = y := le_antisymm (not_lt.mp h2) (not_lt.mp h1)
        subst hxy
        simp [h1]

theorem pairwise_insertAscending (x : Int) (l : List Int) (hl : l.Pairwise (· < ·)) :
    (insertAscending x l).1.Pairwise (· < ·) := by
  induction l with
  | nil => simp [insertAscending]
  | cons y ys ih =>
    have hy := List.pairwise_cons.mp hl
    unfold insertAscending
    by_cases h1 : x < y
    · simp only [h1, if_true]
      refine List.pairwise_cons.mpr ⟨?_, hl⟩
      intro a ha
      rcases List.mem_cons.mp ha with rfl | ha
      · exact h1
      · exact lt_trans h1 (hy.1 a ha)
    · by_cases h2 : y < x
      · simp only [h1, h2, if_true, if_false]
        refine List.pairwise_cons.mpr ⟨?_, ih hy.2⟩
        intro a ha
        rcases (mem_insertAscending x a ys).mp ha with rfl | ha
        · exact h2
        · exact hy.1 a ha
      · simp only [h1, h2, if_false]
        exact hl

/-- Whether `insertAscending` inserts: exactly when the key is absent. -/
theorem insertAscending_snd (x : Int) (l : List Int) (hl : l.Pairwise (· < ·)) :
    (insertAscending x l).2 = true ↔ x ∉ l := by
  induction l with
  | nil => simp [insertAscending]
  | cons y ys ih =>
    have hy := List.pairwise_cons.mp hl
    unfold insertAscending
    by_cases h1 : x < y
    · simp only [h1, if_true, List.mem_cons, true_iff, not_or]
      refine ⟨ne_of_lt h1, fun hx => ?_⟩
      exact absurd (lt_trans h1 (hy.1 x hx)) (lt_irrefl x)
    · by_cases h2 : y < x
      · simp only [h1, h2, if_true, if_false, List.mem_cons, not_or, ih hy.2]
        exact ⟨fun h => ⟨ne_of_gt h2, h⟩, fun h => h.2⟩
      · have hxy : x = y := le_antisymm (not_lt.mp h2) (not_lt.mp h1)
        simp [h1, h2, hxy]

theorem length_insertAscending (x : Int) (l : List Int) :
    (insertAscending x l).1.length = if (insertAscending x l).2 then l.length + 1 else l.length := by
  induction l with
  | nil => simp [insertAscending]
  | cons y ys ih =>
    unfold insertAscending
    by_cases h1 : x < y
    · simp [h1]
    · by_cases h2 : y < x
      · simp only [h1, h2, if_true, if_false, List.length_cons, ih]
        split <;> rfl
      · simp [h1, h2]

theorem inRange_insertAscending (x : CInt) (l : List Int)
    (hl : ∀ z ∈ l, -2147483648 ≤ z ∧ z ≤ 2147483647) :
    ∀ z ∈ (insertAscending x.val l).1, -2147483648 ≤ z ∧ z ≤ 2147483647 := by
  intro z hz
  rcases (mem_insertAscending x.val z l).mp hz with h | h
  · rw [h]
    exact x.inRange
  · exact hl z h

namespace IntSet

/-- A default-constructed (or cleared) `std::set<int>`. -/
def nil : IntSet := ⟨[], List.Pairwise.nil, fun _ h => absurd h (List.not_mem_nil _)⟩

/-- `std::set::insert(x)`: the set after the call and the `.second` of the returned pair. -/
def insert (s : IntSet) (x : CInt) : IntSet × Bool :=
  (⟨(insertAscending x.val s.elems).1, pairwise_insertAscending x.val s.elems s.ascending,
      inRange_insertAscending x s.elems s.inRange⟩,
   (insertAscending x.val s.elems).2)

/-- `std::set::size()`. -/
def size (s : IntSet) : Nat := s.elems.length

/-- `std::set::empty()`. -/
def empty (s : IntSet) : Bool := s.elems.isEmpty

/-- `std::set::clear()`. -/
def clear (_s : IntSet) : IntSet := nil

/-- The mathematical set of features held by a `std::set<int>`. -/
def toFinset (s : IntSet) : Finset Int := s.elems.toFinset

end IntSet

/-- `std::includes(first1, last1, first2, last2)` with the default `<`, as the
standard's reference implementation: one forward merge scan over both ranges. -/
def includes : List Int → List Int → Bool
  | _, [] => true
  | [], _ :: _ => false
  | a :: as, b :: bs =>
    if b < a then false
    else if a < b then includes as (b :: bs)
    else includes as bs

/-! ## IEEE-754 binary64 (`double`) -/

/-- Number of binary digits of `n` (`0` for `0`), by repeated halving. -/
def bitLengthAux : Nat → Nat → Nat
  | 0, _ => 0
  | fuel + 1, n => if n = 0 then 0 else bitLengthAux fuel (n / 2) + 1

/-- Number of binary digits of `n`. -/
def bitLength (n : Nat) : Nat := bitLengthAux n n

/-- The number of low bits dropped when `N / 2^S` (in units of `2^-1074`) is rounded to a
double: at least `S` (nothing finer than `2^-1074`), and enough to keep 53 digits. -/
def roundShift (N S : Nat) : Nat := max S (bitLength N - 53)

/-- `N / 2^d` rounded to the nearest integer, ties to even. -/
def roundQuot (d N : Nat) : Nat :=
  if 2 ^ d < 2 * (N % 2 ^ d) ∨ (2 * (N % 2 ^ d) = 2 ^ d ∧ (N / 2 ^ d) % 2 = 1)
  then N / 2 ^ d + 1 else N / 2 ^ d

/-- The magnitude `N / 2^S` (in units of `2^-1074`) rounded to nearest, ties to even, with
53 significant digits and unbounded exponent; the result is again in units of `2^-1074`. -/
def roundUnits (N S : Nat) : Nat :=
  roundQuot (roundShift N S) N * 2 ^ (roundShift N S - S)

theorem bitLengthAux_le_iff (fuel : Nat) : ∀ n k : Nat, n ≤ fuel →
    (bitLengthAux fuel n ≤ k ↔ n < 2 ^ k) := by
  induction fuel with
  | zero =>
    intro n k hn
    have h0 : n = 0 := Nat.le_zero.mp hn
    subst h0
    simp [bitLengthAux]
  | succ fuel ih =>
    intro n k hn
    unfold bitLengthAux
    by_cases h0 : n = 0
    · subst h0
      simp
    · simp only [h0, if_false]
      cases k with
      | zero =>
        simp only [pow_zero, Nat.lt_one_iff]
        constructor
        · intro h; omega
        · intro h; exact absurd h h0
      | succ k =>
        have hdiv : n / 2 ≤ fuel := by omega
        rw [Nat.add_le_add_iff_right, ih (n / 2) k hdiv, pow_succ]
        exact Nat.div_lt_iff_lt_mul (by decide)

theorem bitLength_le_iff (n k : Nat) : bitLength n ≤ k ↔ n < 2 ^ k :=
  bitLengthAux_le_iff n n k (Nat.le_refl n)

theorem lt_bitLength_iff (n k : Nat) : k < bitLength n ↔ 2 ^ k ≤ n := by
  rw [← not_le, bitLength_le_iff, not_lt]

theorem lt_two_pow_bitLength (n : Nat) : n < 2 ^ bitLength n :=
  (bitLength_le_iff n (bitLength n)).mp (Nat.le_refl _)

theorem bitLength_mono {a b : Nat} (h : a ≤ b) : bitLength a ≤ bitLength b :=
  (bitLength_le_iff a (bitLength b)).mpr (lt_of_le_of_lt h (lt_two_pow_bitLength b))

theorem bitLength_mul_two_pow (K S : Nat) (hK : K ≠ 0) :
    bitLength (K * 2 ^ S) = bitLength K + S := by
  apply le_antisymm
  · rw [bitLength_le_iff, pow_add]
    exact Nat.mul_lt_mul_of_lt_of_le (lt_two_pow_bitLength K) (Nat.le_refl _) (by positivity)
  · have hpos : 0 < bitLength K := by
      rw [lt_bitLength_iff]
      simpa using Nat.pos_of_ne_zero hK
    have h1 : 2 ^ (bitLength K - 1) ≤ K := by
      rw [← lt_bitLength_iff]
      omega
    have h2 : bitLength K + S - 1 < bitLength (K * 2 ^ S) := by
      rw [lt_bitLength_iff]
      have : bitLength K + S - 1 = (bitLength K - 1) + S := by omega
      rw [this, pow_add]
      exact Nat.mul_le_mul_right _ h1
    omega

theorem roundQuot_le_succ (d N : Nat) : roundQuot d N ≤ N / 2 ^ d + 1 := by
  unfold roundQuot
  split <;> omega

theorem le_roundQuot (d N : Nat) : N / 2 ^ d ≤ roundQuot d N := by
  unfold roundQuot
  split <;> omega

/-- Rounding at a fixed position is monotone. -/
theorem roundQuot_mono (d : Nat) {N N' : Nat} (h : N ≤ N') :
    roundQuot d N ≤ roundQuot d N' := by
  have hq : N / 2 ^ d ≤ N' / 2 ^ d := Nat.div_le_div_right h
  rcases Nat.lt_or_eq_of_le hq with hlt | heq
  · exact le_trans (roundQuot_le_succ d N) (le_trans hlt (le_roundQuot d N'))
  · have e1 := Nat.div_add_mod N (2 ^ d)
    have e2 := Nat.div_add_mod N' (2 ^ d)
    rw [← heq] at e2
    have hr : N % 2 ^ d ≤ N' % 2 ^ d := by omega
    unfold roundQuot
    rw [← heq]
    split
    · rename_i hc
      have hc' : 2 ^ d < 2 * (N' % 2 ^ d) ∨
          (2 * (N' % 2 ^ d) = 2 ^ d ∧ (N / 2 ^ d) % 2 = 1) := by
        rcases hc with hc | ⟨hc1, hc2⟩
        · left; omega
        · rcases Nat.lt_or_eq_of_le hr with hr' | hr'
          · left; omega
          · right; exact ⟨by omega, hc2⟩
      rw [if_pos hc']
    · split <;> omega

/-- A multiple of `2^d` is not changed by rounding at position `d`. -/
theorem roundQuot_of_dvd (d T : Nat) (h : 2 ^ d ∣ T) : roundQuot d T * 2 ^ d = T := by
  have hpos : 0 < 2 ^ d := by positivity
  have hmod : T % 2 ^ d = 0 := Nat.mod_eq_zero_of_dvd h
  unfold roundQuot
  rw [hmod]
  have hc : ¬ (2 ^ d < 2 * 0 ∨ (2 * 0 = 2 ^ d ∧ (T / 2 ^ d) % 2 = 1)) := by
    rintro (hc | ⟨hc, _⟩) <;> omega
  rw [if_neg hc]
  exact Nat.div_mul_cancel h

theorem roundShift_mono (S : Nat) {N N' : Nat} (h : N ≤ N') :
    roundShift N S ≤ roundShift N' S := by
  unfold roundShift
  have := bitLength_mono h
  omega

/-- Rounding to 53 digits is monotone, also across a change of exponent. -/
theorem roundQuot_roundShift_mono (S : Nat) {N N' : Nat} (h : N ≤ N') :
    roundQuot (roundShift N S) N * 2 ^ roundShift N S
      ≤ roundQuot (roundShift N' S) N' * 2 ^ roundShift N' S := by
  rcases Nat.lt_or_eq_of_le (roundShift_mono S h) with hlt | heq
  · have hd : roundShift N S = max S (bitLength N - 53) := rfl
    have hd' : roundShift N' S = max S (bitLength N' - 53) := rfl
    have hN : N < 2 ^ (roundShift N' S + 52) := by
      rw [← bitLength_le_iff]
      omega
    have hN' : 2 ^ (roundShift N' S + 52) ≤ N' := by
      rw [← lt_bitLength_iff]
      omega
    have hdvd : 2 ^ roundShift N S ∣ 2 ^ (roundShift N' S + 52) :=
      pow_dvd_pow 2 (by omega)
    have hdvd' : 2 ^ roundShift N' S ∣ 2 ^ (roundShift N' S + 52) :=
      pow_dvd_pow 2 (by omega)
    calc roundQuot (roundShift N S) N * 2 ^ roundShift N S
        ≤ roundQuot (roundShift N S) (2 ^ (roundShift N' S + 52)) * 2 ^ roundShift N S :=
          Nat.mul_le_mul_right _ (roundQuot_mono _ (le_of_lt hN))
      _ = 2 ^ (roundShift N' S + 52) := roundQuot_of_dvd _ _ hdvd
      _ = roundQuot (roundShift N' S) (2 ^ (roundShift N' S + 52)) * 2 ^ roundShift N' S :=
          (roundQuot_of_dvd _ _ hdvd').symm
      _ ≤ roundQuot (roundShift N' S) N' * 2 ^ roundShift N' S :=
          Nat.mul_le_mul_right _ (roundQuot_mono _ hN')
  · rw [← heq]
    exact Nat.mul_le_mul_right _ (roundQuot_mono _ h)

theorem le_roundShift (N S : Nat) : S ≤ roundShift N S := le_max_left _ _

theorem roundUnits_mul_two_pow (N S : Nat) :
    roundUnits N S * 2 ^ S = roundQuot (roundShift N S) N * 2 ^ roundShift N S := by
  unfold roundUnits
  rw [Nat.mul_assoc, ← pow_add, Nat.sub_add_cancel (le_roundShift N S)]

/-- Rounding to the nearest double is monotone. -/
theorem roundUnits_mono (S : Nat) {N N' : Nat} (h : N ≤ N') :
    roundUnits N S ≤ roundUnits N' S := by
  have hpos : 0 < 2 ^ S := by positivity
  apply Nat.le_of_mul_le_mul_right _ hpos
  rw [roundUnits_mul_two_pow, roundUnits_mul_two_pow]
  exact roundQuot_roundShift_mono S h

/-- A magnitude with at most 53 significant digits. -/
def fits53 (k : Nat) : Prop := k % 2 ^ (bitLength k - 53) = 0

instance (k : Nat) : Decidable (fits53 k) := by
  unfold fits53
  infer_instance

theorem fits53_mul_two_pow (m j : Nat) (hm : m ≤ 2 ^ 53) : fits53 (m * 2 ^ j) := by
  unfold fits53
  apply Nat.mod_eq_zero_of_dvd
  rcases Nat.lt_or_eq_of_le hm with hlt | heq
  · have hb : bitLength (m * 2 ^ j) ≤ 53 + j := by
      rw [bitLength_le_iff, pow_add]
      exact Nat.mul_lt_mul_of_lt_of_le hlt (Nat.le_refl _) (by positivity)
    exact Dvd.dvd.mul_left (pow_dvd_pow 2 (by omega)) m
  · rw [heq, ← pow_add]
    have hb : bitLength (2 ^ (53 + j)) ≤ 54 + j := by
      rw [bitLength_le_iff]
      exact Nat.pow_lt_pow_right (by decide) (by omega)
    exact pow_dvd_pow 2 (by omega)

theorem roundQuot_roundShift_le (N S : Nat) : roundQuot (roundShift N S) N ≤ 2 ^ 53 := by
  have h1 : N / 2 ^ roundShift N S < 2 ^ 53 := by
    rw [Nat.div_lt_iff_lt_mul (by positivity), ← pow_add]
    apply lt_of_lt_of_le (lt_two_pow_bitLength N)
    apply Nat.pow_le_pow_right (by decide)
    have : roundShift N S = max S (bitLength N - 53) := rfl
    omega
  have h2 := roundQuot_le_succ (roundShift N S) N
  omega

/-- The rounded magnitude has at most 53 significant digits. -/
theorem fits53_roundUnits (N S : Nat) : fits53 (roundUnits N S) :=
  fits53_mul_two_pow _ _ (roundQuot_roundShift_le N S)

/-- A magnitude that already has at most 53 significant digits is returned unchanged. -/
theorem roundUnits_exact (K S : Nat) (hK : fits53 K) : roundUnits (K * 2 ^ S) S = K := by
  have hpos : 0 < 2 ^ S := by positivity
  apply Nat.eq_of_mul_eq_mul_right hpos
  rw [roundUnits_mul_two_pow]
  apply roundQuot_of_dvd
  by_cases h0 : K = 0
  · subst h0
    simp
  · have hd : roundShift (K * 2 ^ S) S = S + (bitLength K - 53) := by
      unfold roundShift
      rw [bitLength_mul_two_pow K S h0]
      omega
    rw [hd, pow_add, Nat.mul_comm (2 ^ S)]
    exact Nat.mul_dvd_mul (Nat.dvd_of_mod_eq_zero hK) (dvd_refl _)

theorem fits53_one : fits53 1 := by decide

theorem roundUnits_pos (N S : Nat) (h : 2 ^ S ≤ N) : 1 ≤ roundUnits N S := by
  have h1 := roundUnits_exact 1 S fits53_one
  rw [Nat.one_mul] at h1
  rw [← h1]
  exact roundUnits_mono S h

/-- The value `1.0` counted in units of `2^-1074`. -/
def unitsPerOne : Nat := 2 ^ 1074

/-- The value `2^1024`, the first magnitude beyond the finite doubles, in units of `2^-1074`. -/
def overflowUnits : Nat := 2 ^ 2098

/-- A binary64 datum: NaN, an infinity, or a finite value of magnitude
`units * 2^-1074` (every finite double is a whole multiple of the smallest subnormal). -/
inductive DoubleVal where
  | nan
  | inf (neg : Bool)
  | finite (neg : Bool) (units : Nat)
deriving DecidableEq

/-- The finite magnitudes that exist in binary64: at most 53 significant digits and
below `2^1024`. -/
def DoubleVal.IsDouble : DoubleVal → Prop
  | DoubleVal.finite _ k => fits53 k ∧ k < overflowUnits
  | _ => True

/-- A C++ `double`. -/
structure Double where
  val : DoubleVal
  isDouble : val.IsDouble
deriving DecidableEq

theorem unitsPerOne_pos : 0 < unitsPerOne := by
  unfold unitsPerOne
  positivity

theorem overflowUnits_pos : 0 < overflowUnits := by
  unfold overflowUnits
  positivity

theorem mul_unitsPerOne_lt (n : Nat) (hn : n < 2 ^ 53) : n * unitsPerOne < overflowUnits := by
  have h1 : n * 2 ^ 1074 < 2 ^ (53 + 1074) := by
    rw [pow_add]
    exact Nat.mul_lt_mul_of_lt_of_le hn (Nat.le_refl _) (by positivity)
  have h2 : 2 ^ (53 + 1074) ≤ 2 ^ 2098 := by
    apply Nat.pow_le_pow_right
    · decide
    · decide
  exact lt_of_lt_of_le h1 h2

namespace Double

/-- The correctly rounded double of sign `neg` and magnitude `N / 2^S` units: round to
nearest, ties to even; a rounded magnitude of `2^1024` or more overflows to infinity. -/
def round (neg : Bool) (N S : Nat) : Double :=
  if h : roundUnits N S < overflowUnits then
    ⟨DoubleVal.finite neg (roundUnits N S), ⟨fits53_roundUnits N S, h⟩⟩
  else ⟨DoubleVal.inf neg, trivial⟩

/-- The literal `0.0`. -/
def zero : Double := ⟨DoubleVal.finite false 0, ⟨by decide, overflowUnits_pos⟩⟩

/-- The value `-0.0`. -/
def negZero : Double := ⟨DoubleVal.finite true 0, ⟨by decide, overflowUnits_pos⟩⟩

/-- A NaN. -/
def nan : Double := ⟨DoubleVal.nan, trivial⟩

/-- Plus or minus infinity. -/
def inf (neg : Bool) : Double := ⟨DoubleVal.inf neg, trivial⟩

/-- Conversion of an unsigned integer (`size_t`) to `double`. -/
def ofNat (n : Nat) : Double := round false (n * unitsPerOne) 0

/-- The `*` of two doubles: one correctly rounded multiplication. The exact product of
`k` and `l` units is `k * l / 2^1074` units. -/
def mul (a b : Double) : Double :=
  match a.val, b.val with
  | DoubleVal.nan, _ => nan
  | _, DoubleVal.nan => nan
  | DoubleVal.inf s, DoubleVal.inf t => inf (xor s t)
  | DoubleVal.inf s, DoubleVal.finite t l => if l = 0 then nan else inf (xor s t)
  | DoubleVal.finite s k, DoubleVal.inf t => if k = 0 then nan else inf (xor s t)
  | DoubleVal.finite s k, DoubleVal.finite t l => round (xor s t) (k * l) 1074

instance : Zero Double := ⟨zero⟩
instance : One Double := ⟨ofNat 1⟩
instance : Mul Double := ⟨mul⟩

/-- The `== 0.0` test: true for `0.0` and `-0.0`. -/
def isZero (a : Double) : Bool :=
  match a.val with
  | DoubleVal.finite _ k => k == 0
  | _ => false

/-- Position of a non-NaN double on the number line, in units of `2^-1074`, with the
infinities placed at `±2^1024`, beyond every finite double. -/
def ord (a : Double) : Option Int :=
  match a.val with
  | DoubleVal.nan => none
  | DoubleVal.inf neg => some (if neg then -(overflowUnits : Int) else overflowUnits)
  | DoubleVal.finite neg k => some (if neg then -(k : Int) else k)

/-- The `<=` of two doubles: false when either is a NaN. -/
def le (a b : Double) : Bool :=
  match a.ord, b.ord with
  | some x, some y => decide (x ≤ y)
  | _, _ => false

instance : LE Double := ⟨fun a b => le a b = true⟩

instance (a b : Double) : Decidable (a ≤ b) :=
  inferInstanceAs (Decidable (le a b = true))

/-- The exact value of a finite double. -/
def toRat? (a : Double) : Option ℚ :=
  match a.val with
  | DoubleVal.finite neg k => some ((if neg then -(k : ℚ) else k) / unitsPerOne)
  | _ => none

/-- The double of magnitude `m * 2^j` units, for a 53-digit `m`. -/
def ofBits (neg : Bool) (m j : Nat) (hm : m < 2 ^ 53) (hj : j ≤ 2045) : Double :=
  ⟨DoubleVal.finite neg (m * 2 ^ j), by
    have hj2 : 53 + j ≤ 2098 := by omega
    have h1 : m * 2 ^ j < 2 ^ (53 + j) := by
      rw [pow_add]
      exact Nat.mul_lt_mul_of_lt_of_le hm (Nat.le_refl _) (by positivity)
    have h2 : 2 ^ (53 + j) ≤ 2 ^ 2098 := by
      apply Nat.pow_le_pow_right
      · decide
      · exact hj2
    exact ⟨fits53_mul_two_pow m j (le_of_lt hm), lt_of_lt_of_le h1 h2⟩⟩

/-- The double written `0.1`: `0x1.999999999999ap-4`. -/
def c0_1 : Double := ofBits false 0x1999999999999a 1018 (by decide) (by decide)

/-- The double written `0.05`: `0x1.999999999999ap-5`. -/
def c0_05 : Double := ofBits false 0x1999999999999a 1017 (by decide) (by decide)

end Double

/-! ### Facts about double arithmetic -/

namespace Double

theorem ext_val {a b : Double} (h : a.val = b.val) : a = b := by
  cases a
  cases b
  simp only at h
  subst h
  rfl

theorem mul_def (a b : Double) : a * b = mul a b := rfl

theorem zero_val : (0 : Double).val = DoubleVal.finite false 0 := rfl

theorem round_val_of_lt (neg : Bool) (N S : Nat) (h : roundUnits N S < overflowUnits) :
    (round neg N S).val = DoubleVal.finite neg (roundUnits N S) := by
  unfold round
  rw [dif_pos h]

theorem round_val_of_not_lt (neg : Bool) (N S : Nat) (h : ¬ roundUnits N S < overflowUnits) :
    (round neg N S).val = DoubleVal.inf neg := by
  unfold round
  rw [dif_neg h]

/-- A size below `2^53` converts to `double` without rounding. -/
theorem ofNat_val (n : Nat) (hn : n < 2 ^ 53) :
    (ofNat n).val = DoubleVal.finite false (n * unitsPerOne) := by
  have hexact : roundUnits (n * unitsPerOne) 0 = n * unitsPerOne := by
    have h := roundUnits_exact (n * unitsPerOne) 0
      (fits53_mul_two_pow n 1074 (le_of_lt hn))
    rw [pow_zero, Nat.mul_one] at h
    exact h
  unfold ofNat
  rw [round_val_of_lt false _ 0 (by rw [hexact]; exact mul_unitsPerOne_lt n hn), hexact]

/-- A finite double times a size below `2^53`: the exact product, rounded once. -/
theorem mul_ofNat_finite (p : Double) (s : Bool) (k n : Nat)
    (hp : p.val = DoubleVal.finite s k) (hn : n < 2 ^ 53) :
    p * ofNat n = round s (k * (n * unitsPerOne)) 1074 := by
  rw [mul_def]
  unfold mul
  rw [hp, ofNat_val n hn]
  simp only [Bool.xor_false]

theorem mul_ofNat_inf (p : Double) (s : Bool) (n : Nat)
    (hp : p.val = DoubleVal.inf s) (h1 : 1 ≤ n) (hn : n < 2 ^ 53) :
    p * ofNat n = inf s := by
  rw [mul_def]
  unfold mul
  rw [hp, ofNat_val n hn]
  have hne : n * unitsPerOne ≠ 0 :=
    Nat.pos_iff_ne_zero.mp (Nat.mul_pos h1 unitsPerOne_pos)
  simp only [hne, if_false, Bool.xor_false]

theorem mul_ofNat_nan (p : Double) (n : Nat) (hp : p.val = DoubleVal.nan) :
    p * ofNat n = nan := by
  rw [mul_def]
  unfold mul
  rw [hp]
  cases (ofNat n).val <;> rfl

/-- When the exact product of a finite double and a size is itself a double, the
multiplication returns it. -/
theorem mul_ofNat_exact (p : Double) (s : Bool) (k n : Nat)
    (hp : p.val = DoubleVal.finite s k) (hn : n < 2 ^ 53)
    (hfit : fits53 (k * n)) (hlt : k * n < overflowUnits) :
    (p * ofNat n).val = DoubleVal.finite s (k * n) := by
  have hexact : roundUnits (k * (n * unitsPerOne)) 1074 = k * n := by
    rw [← Nat.mul_assoc]
    exact roundUnits_exact (k * n) 1074 hfit
  rw [mul_ofNat_finite p s k n hp hn, round_val_of_lt s _ _ (by rw [hexact]; exact hlt), hexact]

/-- Multiplying by the size `1` returns the same double. -/
theorem mul_ofNat_one (p : Double) : p * ofNat 1 = p := by
  apply ext_val
  obtain ⟨v, hv⟩ := p
  cases v with
  | nan => rw [mul_ofNat_nan _ 1 rfl]; rfl
  | inf s => rw [mul_ofNat_inf _ s 1 rfl (Nat.le_refl 1) (by decide)]; rfl
  | finite s k =>
    have h := mul_ofNat_exact ⟨DoubleVal.finite s k, hv⟩ s k 1 rfl (by decide)
      (by rw [Nat.mul_one]; exact hv.1) (by rw [Nat.mul_one]; exact hv.2)
    rw [Nat.mul_one] at h
    exact h

/-- A zero times a size below `2^53` is the same zero. -/
theorem zero_mul_ofNat (p : Double) (s : Bool) (n : Nat)
    (hp : p.val = DoubleVal.finite s 0) (hn : n < 2 ^ 53) :
    (p * ofNat n).val = DoubleVal.finite s 0 := by
  have h := mul_ofNat_exact p s 0 n hp hn (by rw [Nat.zero_mul]; decide)
    (by rw [Nat.zero_mul]; exact overflowUnits_pos)
  rw [Nat.zero_mul] at h
  exact h

/-- The order of two doubles read off their positions on the number line. -/
def leOrd (a b : Double) : Prop :=
  match a.ord, b.ord with
  | some x, some y => x ≤ y
  | _, _ => False

theorem le_def (a b : Double) : a ≤ b ↔ leOrd a b := by
  show le a b = true ↔ leOrd a b
  unfold le leOrd
  cases a.ord <;> cases b.ord <;> simp

theorem zero_le_zero : (0 : Double) ≤ 0 := by
  rw [le_def]
  simp only [leOrd, ord, zero_val, Bool.false_eq_true, if_false]
  exact le_refl _

/-- What `0.0 <= p` says about `p`. -/
theorem zero_le_cases (p : Double) (hp : (0 : Double) ≤ p) :
    p.val = DoubleVal.inf false ∨ (∃ k, p.val = DoubleVal.finite false k) ∨
      p.val = DoubleVal.finite true 0 := by
  obtain ⟨v, hv⟩ := p
  rw [le_def] at hp
  have hpos : (0 : Int) < (overflowUnits : Int) := by exact_mod_cast overflowUnits_pos
  cases v with
  | nan => simp only [leOrd, ord, zero_val] at hp
  | inf s =>
    cases s with
    | false => exact Or.inl rfl
    | true =>
      exfalso
      simp only [leOrd, ord, zero_val, if_true, Bool.false_eq_true, if_false,
        Nat.cast_zero] at hp
      omega
  | finite s k =>
    cases s with
    | false => exact Or.inr (Or.inl ⟨k, rfl⟩)
    | true =>
      simp only [leOrd, ord, zero_val, if_true, Bool.false_eq_true, if_false,
        Nat.cast_zero] at hp
      have hk : k = 0 := by omega
      subst hk
      exact Or.inr (Or.inr rfl)

/-- Position on the number line of `round false N S`. -/
theorem ord_round_false (N S : Nat) :
    (round false N S).ord = some (min (roundUnits N S : Int) (overflowUnits : Int)) := by
  by_cases h : roundUnits N S < overflowUnits
  · have hI : (roundUnits N S : Int) < (overflowUnits : Int) := by exact_mod_cast h
    simp only [ord, round_val_of_lt false N S h, Bool.false_eq_true, if_false]
    rw [min_eq_left (le_of_lt hI)]
  · have hI : (overflowUnits : Int) ≤ (roundUnits N S : Int) := by
      exact_mod_cast not_lt.mp h
    simp only [ord, round_val_of_not_lt false N S h, Bool.false_eq_true, if_false]
    rw [min_eq_right hI]

/-- For a coefficient `p` with `0.0 <= p`, the product with a size is `0.0 <=` it. -/
theorem zero_le_mul_ofNat (p : Double) (hp : (0 : Double) ≤ p) (n : Nat)
    (h1 : 1 ≤ n) (hn : n < 2 ^ 53) : (0 : Double) ≤ p * ofNat n := by
  rw [le_def]
  have hpos : (0 : Int) ≤ (overflowUnits : Int) := Int.ofNat_nonneg _
  rcases zero_le_cases p hp with h | ⟨k, h⟩ | h
  · rw [mul_ofNat_inf p false n h h1 hn]
    simp only [leOrd, ord, zero_val, inf, Bool.false_eq_true, if_false, Nat.cast_zero]
    exact hpos
  · rw [mul_ofNat_finite p false k n h hn]
    simp only [leOrd, ord_round_false]
    simp only [ord, zero_val, Bool.false_eq_true, if_false, Nat.cast_zero]
    exact le_min (Int.ofNat_nonneg _) hpos
  · have hz := zero_mul_ofNat p true n h hn
    simp only [leOrd, ord, zero_val, hz, Bool.false_eq_true, if_false, if_true, Nat.cast_zero,
      neg_zero]
    exact le_refl _

/-- For a coefficient `p` with `0.0 <= p`, the product with a size does not decrease
when the size grows. -/
theorem mul_ofNat_mono (p : Double) (hp : (0 : Double) ≤ p) (n n' : Nat)
    (h1 : 1 ≤ n) (hnn : n ≤ n') (hn : n' < 2 ^ 53) : p * ofNat n ≤ p * ofNat n' := by
  have hn0 : n < 2 ^ 53 := lt_of_le_of_lt hnn hn
  rw [le_def]
  rcases zero_le_cases p hp with h | ⟨k, h⟩ | h
  · rw [mul_ofNat_inf p false n h h1 hn0, mul_ofNat_inf p false n' h (le_trans h1 hnn) hn]
    simp only [leOrd, ord, inf, Bool.false_eq_true, if_false]
    exact le_refl _
  · rw [mul_ofNat_finite p false k n h hn0, mul_ofNat_finite p false k n' h hn]
    simp only [leOrd, ord_round_false]
    have hmono : roundUnits (k * (n * unitsPerOne)) 1074
        ≤ roundUnits (k * (n' * unitsPerOne)) 1074 :=
      roundUnits_mono 1074 (Nat.mul_le_mul_left k (Nat.mul_le_mul_right _ hnn))
    have hI : (roundUnits (k * (n * unitsPerOne)) 1074 : Int)
        ≤ (roundUnits (k * (n' * unitsPerOne)) 1074 : Int) := by exact_mod_cast hmono
    exact min_le_min hI (le_refl _)
  · have hz := zero_mul_ofNat p true n h hn0
    have hz' := zero_mul_ofNat p true n' h hn
    simp only [leOrd, ord, hz, hz', if_true]
    exact le_refl _

/-- A coefficient that is not zero times a size of at least one is not zero. -/
theorem isZero_mul_ofNat (p : Double) (hp : p.isZero = false) (n : Nat)
    (h1 : 1 ≤ n) (hn : n < 2 ^ 53) : (p * ofNat n).isZero = false := by
  obtain ⟨v, hv⟩ := p
  cases v with
  | nan => rw [mul_ofNat_nan _ n rfl]; rfl
  | inf s => rw [mul_ofNat_inf _ s n rfl h1 hn]; rfl
  | finite s k =>
    have hk : 1 ≤ k := by
      rcases Nat.eq_zero_or_pos k with h0 | h0
      · subst h0
        simp only [isZero, beq_self_eq_true] at hp
        exact absurd hp (by decide)
      · exact h0
    rw [mul_ofNat_finite _ s k n rfl hn]
    have hpos : 1 ≤ roundUnits (k * (n * unitsPerOne)) 1074 := by
      apply roundUnits_pos
      have h2 : 1 * (1 * unitsPerOne) ≤ k * (n * unitsPerOne) :=
        Nat.mul_le_mul hk (Nat.mul_le_mul_right _ h1)
      rw [Nat.one_mul, Nat.one_mul] at h2
      exact h2
    by_cases h : roundUnits (k * (n * unitsPerOne)) 1074 < overflowUnits
    · simp only [isZero, round_val_of_lt s _ _ h]
      rw [beq_eq_false_iff_ne]
      omega
    · simp only [isZero, round_val_of_not_lt s _ _ h]

end Double

/-! ## The class -/

/-- The data members of `InteractionPenalty` (without `mutex_`). -/
structure InteractionPenalty where
  penalty_ : Double
  complexity_ : Double
  used_features_ : List IntSet
  current_tree_features_ : IntSet
deriving DecidableEq

/-- The `for` loop of `CalculatePenalty` over `used_features_`: `true` when some
entry makes `std::includes` succeed (the loop returns early at the first such entry). -/
def scanUsedFeatures (tree_features : IntSet) : List IntSet → Bool
  | [] => false
  | set :: rest =>
    if includes set.elems tree_features.elems then true
    else scanUsedFeatures tree_features rest

namespace InteractionPenalty

/-- The constructor: both coefficients stored, both containers empty. -/
def new (penalty complexity : Double) : InteractionPenalty :=
  ⟨penalty, complexity, [], IntSet.nil⟩

/-- `void Init()`. -/
def Init (self : InteractionPenalty) : InteractionPenalty :=
  { self with used_features_ := [], current_tree_features_ := self.current_tree_features_.clear }

/-- `double CalculatePenalty(int feature) const`. The last line is the source's
`penalty_ * tree_features.size()`: the size converted to `double`, then one rounded
multiplication. -/
def CalculatePenalty (self : InteractionPenalty) (feature : CInt) : Double :=
  let tree_features := (self.current_tree_features_.insert feature).1
  let is_feature_new := (self.current_tree_features_.insert feature).2
  if !is_feature_new then 0
  else if scanUsedFeatures tree_features self.used_features_ then 0
  else self.penalty_ * Double.ofNat tree_features.size

/-- `double CalculateComplexityPenalty(int feature) const`. -/
def CalculateComplexityPenalty (self : InteractionPenalty) (feature : CInt) : Double :=
  let tree_features := (self.current_tree_features_.insert feature).1
  let is_feature_new := (self.current_tree_features_.insert feature).2
  if !is_feature_new then 0
  else self.complexity_ * Double.ofNat tree_features.size

/-- `void UpdateUsedFeatures()`. -/
def UpdateUsedFeatures (self : InteractionPenalty) : InteractionPenalty :=
  if !self.current_tree_features_.empty then
    { self with used_features_ := self.used_features_ ++ [self.current_tree_features_] }
  else self

/-- `void ClearCurrentTreeFeatures()`. -/
def ClearCurrentTreeFeatures (self : InteractionPenalty) : InteractionPenalty :=
  { self with current_tree_features_ := self.current_tree_features_.clear }

/-- `void AddCurrentTreeFeature(int feature)`. -/
def AddCurrentTreeFeature (self : InteractionPenalty) (feature : CInt) : InteractionPenalty :=
  { self with current_tree_features_ := (self.current_tree_features_.insert feature).1 }

end InteractionPenalty

/-- The set written `{x1, x2, ...}` in C++: the elements inserted one by one. -/
def IntSet.ofList (l : List CInt) : IntSet :=
  l.foldl (fun s x => (s.insert x).1) IntSet.nil

/-! ## Call sequences -/

/-- One call of a public method on an instance. -/
inductive Op where
  | Init
  | CalculatePenalty (feature : CInt)
  | CalculateComplexityPenalty (feature : CInt)
  | UpdateUsedFeatures
  | ClearCurrentTreeFeatures
  | AddCurrentTreeFeature (feature : CInt)
deriving DecidableEq

/-- The state after one call. The two queries are `const` methods: they leave the
state as it is (their return value is `CalculatePenalty` / `CalculateComplexityPenalty`). -/
def Op.apply : Op → InteractionPenalty → InteractionPenalty
  | Op.Init, s => s.Init
  | Op.CalculatePenalty _, s => s
  | Op.CalculateComplexityPenalty _, s => s
  | Op.UpdateUsedFeatures, s => s.UpdateUsedFeatures
  | Op.ClearCurrentTreeFeatures, s => s.ClearCurrentTreeFeatures
  | Op.AddCurrentTreeFeature feature, s => s.AddCurrentTreeFeature feature

/-- The state after a finite sequence of calls, first call first. -/
def runOps : List Op → InteractionPenalty → InteractionPenalty
  | [], s => s
  | op :: rest, s => runOps rest (op.apply s)

/-! ## Facts about the embedded `std::set<int>` operations -/

theorem IntSet.mem_toFinset (s : IntSet) (x : Int) : x ∈ s.toFinset ↔ x ∈ s.elems := by
  simp [IntSet.toFinset]

theorem IntSet.card_toFinset (s : IntSet) : s.toFinset.card = s.size := by
  unfold IntSet.toFinset IntSet.size
  apply List.toFinset_card_of_nodup
  exact s.ascending.imp (fun h => ne_of_lt h)

theorem IntSet.insert_snd (s : IntSet) (x : CInt) :
    (s.insert x).2 = true ↔ x.val ∉ s.toFinset := by
  rw [IntSet.mem_toFinset]
  exact insertAscending_snd x.val s.elems s.ascending

theorem IntSet.insert_snd_false (s : IntSet) (x : CInt) :
    (s.insert x).2 = false ↔ x.val ∈ s.toFinset := by
  rw [← not_iff_not, Bool.not_eq_false]
  exact IntSet.insert_snd s x

theorem IntSet.toFinset_insert (s : IntSet) (x : CInt) :
    (s.insert x).1.toFinset = s.toFinset ∪ {x.val} := by
  ext z
  simp only [IntSet.mem_toFinset, IntSet.insert, mem_insertAscending, Finset.mem_union,
    Finset.mem_singleton]
  tauto

theorem IntSet.size_insert_of_new (s : IntSet) (x : CInt) (h : x.val ∉ s.toFinset) :
    (s.insert x).1.size = s.size + 1 := by
  have h2 := (IntSet.insert_snd s x).mpr h
  have h3 := length_insertAscending x.val s.elems
  simp only [IntSet.insert] at h2
  simp only [h2, if_true] at h3
  exact h3

theorem IntSet.insert_fst_of_mem (s : IntSet) (x : CInt) (h : x.val ∈ s.toFinset) :
    (s.insert x).1 = s := by
  have key : ∀ (y : Int) (l : List Int), l.Pairwise (· < ·) → y ∈ l →
      (insertAscending y l).1 = l := by
    intro x l
    induction l with
    | nil => intro _ hx; simp at hx
    | cons y ys ih =>
      intro hl hx
      have hy := List.pairwise_cons.mp hl
      unfold insertAscending
      by_cases h1 : x < y
      · rcases List.mem_cons.mp hx with rfl | hx
        · exact absurd h1 (lt_irrefl _)
        · exact absurd (lt_trans h1 (hy.1 x hx)) (lt_irrefl x)
      · by_cases h2 : y < x
        · rcases List.mem_cons.mp hx with rfl | hx
          · exact absurd h2 (lt_irrefl _)
          · simp only [h1, h2, if_true, if_false, ih hy.2 hx]
        · simp only [h1, h2, if_false]
  have hx := (IntSet.mem_toFinset s x.val).mp h
  cases s with
  | mk elems asc rng =>
    simp only [IntSet.insert, IntSet.mk.injEq]
    exact key x.val elems asc hx

/-- An ascending sequence of integers between `lo` and the largest `int` has at most
as many entries as there are such integers. -/
theorem length_le_of_ascending (l : List Int) : ∀ lo : Int, lo ≤ 2147483648 →
    l.Pairwise (· < ·) → (∀ x ∈ l, lo ≤ x ∧ x ≤ 2147483647) →
    (l.length : Int) ≤ 2147483648 - lo := by
  induction l with
  | nil =>
    intro lo hlo _ _
    simp only [List.length_nil, Nat.cast_zero]
    omega
  | cons a t ih =>
    intro lo hlo hl hr
    have ha := hr a (List.mem_cons_self a t)
    have hp := List.pairwise_cons.mp hl
    have ht := ih (a + 1) (by omega) hp.2 (fun x hx => by
      have h1 := hp.1 x hx
      have h2 := hr x (List.mem_cons_of_mem a hx)
      omega)
    simp only [List.length_cons, Nat.cast_add, Nat.cast_one]
    omega

/-- A `std::set<int>` holds at most `2^32` keys. -/
theorem IntSet.size_le (s : IntSet) : s.size ≤ 4294967296 := by
  have h := length_le_of_ascending s.elems (-2147483648) (by omega) s.ascending s.inRange
  unfold IntSet.size
  omega

/-- Every size of a `std::set<int>` converts to `double` without rounding. -/
theorem IntSet.size_lt (s : IntSet) : s.size < 2 ^ 53 :=
  lt_of_le_of_lt (IntSet.size_le s) (by decide)

theorem IntSet.card_succ_lt (s : IntSet) : s.toFinset.card + 1 < 2 ^ 53 := by
  rw [IntSet.card_toFinset]
  have h := IntSet.size_le s
  have h2 : (4294967296 : Nat) + 1 < 2 ^ 53 := by decide
  omega


/-- On ascending sequences the merge scan of `std::includes` decides inclusion. -/
theorem includes_iff_subset (A : List Int) :
    ∀ B : List Int, A.Pairwise (· < ·) → B.Pairwise (· < ·) →
      (includes A B = true ↔ ∀ x ∈ B, x ∈ A) := by
  induction A with
  | nil =>
    intro B _ _
    cases B with
    | nil => simp [includes]
    | cons b bs =>
      simp only [includes, Bool.false_eq_true, false_iff]
      intro h
      exact absurd (h b (List.mem_cons_self b bs)) (List.not_mem_nil b)
  | cons a as ih =>
    intro B hA hB
    cases B with
    | nil => simp [includes]
    | cons b bs =>
      have ha := List.pairwise_cons.mp hA
      have hb := List.pairwise_cons.mp hB
      unfold includes
      by_cases h1 : b < a
      · simp only [h1, if_true, Bool.false_eq_true, false_iff]
        intro hsub
        rcases List.mem_cons.mp (hsub b (List.mem_cons_self b bs)) with hba | hba
        · exact absurd h1 (hba ▸ lt_irrefl _)
        · exact absurd (lt_trans h1 (ha.1 b hba)) (lt_irrefl b)
      · by_cases h2 : a < b
        · simp only [h1, h2, if_true, if_false]
          rw [ih (b :: bs) ha.2 hB]
          constructor
          · intro hsub x hx
            exact List.mem_cons_of_mem a (hsub x hx)
          · intro hsub x hx
            rcases List.mem_cons.mp (hsub x hx) with hxa | hxa
            · exfalso
              rcases List.mem_cons.mp hx with hxb | hxb
              · rw [hxa] at hxb; exact absurd h2 (hxb ▸ lt_irrefl _)
              · have := hb.1 x hxb
                rw [hxa] at this
                exact absurd (lt_trans h2 this) (lt_irrefl a)
            · exact hxa
        · have hab : a = b := le_antisymm (not_lt.mp h1) (not_lt.mp h2)
          subst hab
          simp only [h1, if_false]
          rw [ih bs ha.2 hb.2]
          constructor
          · intro hsub x hx
            rcases List.mem_cons.mp hx with hxa | hxa
            · rw [hxa]; exact List.mem_cons_self a as
            · exact List.mem_cons_of_mem a (hsub x hxa)
          · intro hsub x hx
            rcases List.mem_cons.mp (hsub x (List.mem_cons_of_mem a hx)) with hxa | hxa
            · have := hb.1 x hx
              rw [hxa] at this
              exact absurd this (lt_irrefl a)
            · exact hxa

theorem includes_iff_toFinset (S T : IntSet) :
    includes S.elems T.elems = true ↔ T.toFinset ⊆ S.toFinset := by
  rw [includes_iff_subset S.elems T.elems S.ascending T.ascending]
  simp only [Finset.subset_iff, IntSet.mem_toFinset]

/-- The history scan succeeds exactly when some archived entry covers the candidate. -/
theorem scanUsedFeatures_iff (T : IntSet) (H : List IntSet) :
    scanUsedFeatures T H = true ↔ ∃ S ∈ H, T.toFinset ⊆ S.toFinset := by
  induction H with
  | nil => simp [scanUsedFeatures]
  | cons S rest ih =>
    unfold scanUsedFeatures
    cases h : includes S.elems T.elems with
    | true =>
      simp only [if_true, true_iff]
      exact ⟨S, List.mem_cons_self S rest, (includes_iff_toFinset S T).mp h⟩
    | false =>
      simp only [Bool.false_eq_true, if_false, ih]
      constructor
      · rintro ⟨S', hS', hsub⟩
        exact ⟨S', List.mem_cons_of_mem S hS', hsub⟩
      · rintro ⟨S', hS', hsub⟩
        rcases List.mem_cons.mp hS' with hS' | hS'
        · subst hS'
          rw [(includes_iff_toFinset S' T).mpr hsub] at h
          exact absurd h (by decide)
        · exact ⟨S', hS', hsub⟩

/-! ## Exact values of doubles -/

namespace Double

theorem unitsPerOne_cast_ne_zero : (unitsPerOne : ℚ) ≠ 0 :=
  Nat.cast_ne_zero.mpr (Nat.pos_iff_ne_zero.mp unitsPerOne_pos)

theorem toRat?_of_finite (a : Double) (s : Bool) (k : Nat)
    (h : a.val = DoubleVal.finite s k) :
    a.toRat? = some ((if s then -(k : ℚ) else k) / unitsPerOne) := by
  unfold toRat?
  rw [h]

/-- When the exact value of `r` is `n` times the exact value of `p`, the same holds of
their magnitudes in units. -/
theorem units_eq_of_toRat (p r : Double) (s t : Bool) (k l n : Nat)
    (hp : p.val = DoubleVal.finite s k) (hr : r.val = DoubleVal.finite t l)
    (h : r.toRat? = p.toRat?.map (fun x => x * (n : ℚ))) : l = k * n := by
  rw [toRat?_of_finite p s k hp, toRat?_of_finite r t l hr, Option.map_some',
    Option.some.injEq, div_mul_eq_mul_div, div_left_inj' unitsPerOne_cast_ne_zero] at h
  have hl : (0 : ℚ) ≤ (l : ℚ) := Nat.cast_nonneg l
  have hkn : (0 : ℚ) ≤ (k : ℚ) * (n : ℚ) := mul_nonneg (Nat.cast_nonneg k) (Nat.cast_nonneg n)
  have key : (l : ℚ) = (k : ℚ) * (n : ℚ) := by
    cases s <;> cases t <;> simp only [if_true, Bool.false_eq_true, if_false] at h <;>
      linarith
  exact_mod_cast key

theorem exists_finite_of_toRat? (a : Double) (x : ℚ) (h : a.toRat? = some x) :
    ∃ s k, a.val = DoubleVal.finite s k := by
  obtain ⟨v, hv⟩ := a
  cases v with
  | nan => simp [toRat?] at h
  | inf s => simp [toRat?] at h
  | finite s k => exact ⟨s, k, rfl⟩

/-- When the exact product of `p` and a size is the value of some double `r`, the
multiplication returns that exact product. -/
theorem mul_ofNat_toRat_exact (p r : Double) (n : Nat) (hn : n < 2 ^ 53) (x : ℚ)
    (hp : p.toRat? = some x) (hr : r.toRat? = some (x * (n : ℚ))) :
    (p * ofNat n).toRat? = some (x * (n : ℚ)) := by
  obtain ⟨s, k, hpv⟩ := exists_finite_of_toRat? p x hp
  obtain ⟨t, l, hrv⟩ := exists_finite_of_toRat? r _ hr
  have hl : l = k * n := by
    apply units_eq_of_toRat p r s t k l n hpv hrv
    rw [hr, hp, Option.map_some']
  have hd := r.isDouble
  rw [hrv, hl] at hd
  have hval := mul_ofNat_exact p s k n hpv hn hd.1 hd.2
  rw [toRat?_of_finite _ s (k * n) hval]
  rw [toRat?_of_finite p s k hpv, Option.some.injEq] at hp
  rw [← hp, div_mul_eq_mul_div]
  cases s <;> simp only [if_true, Bool.false_eq_true, if_false] <;> push_cast <;> ring_nf

end Double

/-! ## Case analysis of the two queries -/

theorem calculatePenalty_of_mem (p c : Double) (H : List IntSet) (W : IntSet) (f : CInt)
    (hf : f.val ∈ W.toFinset) :
    InteractionPenalty.CalculatePenalty ⟨p, c, H, W⟩ f = 0 := by
  have hold : (W.insert f).2 = false := (IntSet.insert_snd_false W f).mpr hf
  simp only [InteractionPenalty.CalculatePenalty, hold, Bool.not_false, if_true]

theorem calculatePenalty_of_covered (p c : Double) (H : List IntSet) (W : IntSet) (f : CInt)
    (hcov : ∃ S ∈ H, W.toFinset ∪ {f.val} ⊆ S.toFinset) :
    InteractionPenalty.CalculatePenalty ⟨p, c, H, W⟩ f = 0 := by
  have hscan : scanUsedFeatures (W.insert f).1 H = true := by
    rw [scanUsedFeatures_iff, IntSet.toFinset_insert]
    exact hcov
  simp only [InteractionPenalty.CalculatePenalty, hscan, if_true]
  split <;> rfl

theorem calculatePenalty_of_novel (p c : Double) (H : List IntSet) (W : IntSet) (f : CInt)
    (hf : f.val ∉ W.toFinset) (hnovel : ¬ ∃ S ∈ H, W.toFinset ∪ {f.val} ⊆ S.toFinset) :
    InteractionPenalty.CalculatePenalty ⟨p, c, H, W⟩ f
      = p * Double.ofNat (W.toFinset.card + 1) := by
  have hnew : (W.insert f).2 = true := (IntSet.insert_snd W f).mpr hf
  have hscan : scanUsedFeatures (W.insert f).1 H = false := by
    rw [← Bool.not_eq_true, scanUsedFeatures_iff, IntSet.toFinset_insert]
    exact hnovel
  have hsize : (W.insert f).1.size = W.toFinset.card + 1 := by
    rw [IntSet.size_insert_of_new W f hf, IntSet.card_toFinset]
  simp only [InteractionPenalty.CalculatePenalty, hnew, hscan, hsize, Bool.not_true,
    Bool.false_eq_true, if_false]

theorem calculateComplexityPenalty_of_mem (p c : Double) (H : List IntSet) (W : IntSet)
    (f : CInt) (hf : f.val ∈ W.toFinset) :
    InteractionPenalty.CalculateComplexityPenalty ⟨p, c, H, W⟩ f = 0 := by
  have hold : (W.insert f).2 = false := (IntSet.insert_snd_false W f).mpr hf
  simp only [InteractionPenalty.CalculateComplexityPenalty, hold, Bool.not_false, if_true]

theorem calculateComplexityPenalty_of_new (p c : Double) (H : List IntSet) (W : IntSet)
    (f : CInt) (hf : f.val ∉ W.toFinset) :
    InteractionPenalty.CalculateComplexityPenalty ⟨p, c, H, W⟩ f
      = c * Double.ofNat (W.toFinset.card + 1) := by
  have hnew : (W.insert f).2 = true := (IntSet.insert_snd W f).mpr hf
  have hsize : (W.insert f).1.size = W.toFinset.card + 1 := by
    rw [IntSet.size_insert_of_new W f hf, IntSet.card_toFinset]
  simp only [InteractionPenalty.CalculateComplexityPenalty, hnew, hsize, Bool.not_true,
    Bool.false_eq_true, if_false]

/-- A run of `AddCurrentTreeFeature` calls only touches the working set, which ends
up holding the old features and every feature that was added. -/
theorem runOps_addCurrentTreeFeature (gs : List CInt) (s : InteractionPenalty) :
    (runOps (gs.map Op.AddCurrentTreeFeature) s).penalty_ = s.penalty_ ∧
    (runOps (gs.map Op.AddCurrentTreeFeature) s).complexity_ = s.complexity_ ∧
    (runOps (gs.map Op.AddCurrentTreeFeature) s).used_features_ = s.used_features_ ∧
    (runOps (gs.map Op.AddCurrentTreeFeature) s).current_tree_features_.toFinset
      = s.current_tree_features_.toFinset ∪ (gs.map CInt.val).toFinset := by
  induction gs generalizing s with
  | nil => simp [runOps]
  | cons g rest ih =>
    have h := ih (s.AddCurrentTreeFeature g)
    simp only [List.map_cons, runOps, Op.apply]
    refine ⟨h.1, h.2.1, h.2.2.1, ?_⟩
    rw [h.2.2.2]
    simp only [InteractionPenalty.AddCurrentTreeFeature, IntSet.toFinset_insert,
      List.toFinset_cons]
    ext z
    simp only [Finset.mem_union, Finset.mem_singleton, Finset.mem_insert]
    tauto

/-! ## The penalty queries -/

/-- C1, as amended: for every working set `W` of size `k`, history `H`, feature `f` not
in `W` and penalty coefficient `p`, if no entry of `H` contains `W ∪ {f}`, then
`CalculatePenalty(f)` returns the `double` product `penalty_ * (k + 1)`: the exact
product rounded once to the nearest double. It is the exact product whenever that
number is a double. -/
theorem calculatePenalty_novel (p c : Double) (H : List IntSet) (W : IntSet) (f : CInt)
    (k : Nat) (hk : W.toFinset.card = k) (hf : f.val ∉ W.toFinset)
    (hnovel : ∀ S ∈ H, ¬ (W.toFinset ∪ {f.val} ⊆ S.toFinset)) :
    InteractionPenalty.CalculatePenalty ⟨p, c, H, W⟩ f = p * Double.ofNat (k + 1) ∧
    ∀ (r : Double) (x : ℚ), p.toRat? = some x →
      r.toRat? = some (x * ((k + 1 : Nat) : ℚ)) →
      (InteractionPenalty.CalculatePenalty ⟨p, c, H, W⟩ f).toRat?
        = some (x * ((k + 1 : Nat) : ℚ)) := by
  have hval : InteractionPenalty.CalculatePenalty ⟨p, c, H, W⟩ f
      = p * Double.ofNat (k + 1) := by
    rw [calculatePenalty_of_novel p c H W f hf
      (fun ⟨S, hS, hsub⟩ => hnovel S hS hsub), hk]
  refine ⟨hval, ?_⟩
  intro r x hp hr
  rw [hval]
  have hlt : k + 1 < 2 ^ 53 := by
    rw [← hk]
    exact IntSet.card_succ_lt W
  exact Double.mul_ofNat_toRat_exact p r (k + 1) hlt x hp hr

theorem calculatePenalty_novel_witness :
    (IntSet.ofList [1]).toFinset.card = 1 ∧ (3 : CInt).val ∉ (IntSet.ofList [1]).toFinset ∧
    (∀ S ∈ [IntSet.ofList [1, 2], IntSet.ofList [2, 3]],
      ¬ ((IntSet.ofList [1]).toFinset ∪ {(3 : CInt).val} ⊆ S.toFinset)) ∧
    InteractionPenalty.CalculatePenalty
      ⟨Double.c0_1, Double.c0_05, [IntSet.ofList [1, 2], IntSet.ofList [2, 3]],
        IntSet.ofList [1]⟩ 3
      = Double.c0_1 * Double.ofNat (1 + 1) :=
  ⟨by decide, by decide, by decide,
   (calculatePenalty_novel Double.c0_1 Double.c0_05
     [IntSet.ofList [1, 2], IntSet.ofList [2, 3]]
     (IntSet.ofList [1]) 3 1 (by decide) (by decide) (by decide)).1⟩

/-- C1 as stated fails: with `penalty_ = 0.1`, working set `{1, 2}` (size 2), candidate
`3` and no covering history entry, the value returned is not the exact product
`0.1 * 3`: the multiplication rounds it to `0x1.3333333333334p-2`. -/
theorem calculatePenalty_novel_not_exact :
    (IntSet.ofList [1, 2]).toFinset.card = 2 ∧
    (3 : CInt).val ∉ (IntSet.ofList [1, 2]).toFinset ∧
    (∀ S ∈ [IntSet.ofList [7]],
      ¬ ((IntSet.ofList [1, 2]).toFinset ∪ {(3 : CInt).val} ⊆ S.toFinset)) ∧
    (InteractionPenalty.CalculatePenalty
        ⟨Double.c0_1, Double.c0_05, [IntSet.ofList [7]], IntSet.ofList [1, 2]⟩ 3).toRat?
      ≠ Double.c0_1.toRat?.map (fun x => x * ((2 + 1 : Nat) : ℚ)) := by
  refine ⟨by decide, by decide, by decide, ?_⟩
  intro h
  have hv : (InteractionPenalty.CalculatePenalty
      ⟨Double.c0_1, Double.c0_05, [IntSet.ofList [7]], IntSet.ofList [1, 2]⟩ 3).val
      = DoubleVal.finite false (0x13333333333334 * 2 ^ 1020) := by decide!
  have hu := Double.units_eq_of_toRat Double.c0_1 _ false false
    (0x1999999999999a * 2 ^ 1018) (0x13333333333334 * 2 ^ 1020) (2 + 1) rfl hv h
  exact absurd hu (by decide!)

/-- C2: if some entry `S` of the history satisfies `W ∪ {f} ⊆ S` (inclusion, not only
equality), then `CalculatePenalty(f)` returns `0.0`, whatever the penalty coefficient
and wherever `S` stands in the history. -/
theorem calculatePenalty_covered (p c : Double) (H : List IntSet) (W : IntSet) (f : CInt)
    (S : IntSet) (hS : S ∈ H) (hcov : W.toFinset ∪ {f.val} ⊆ S.toFinset) :
    InteractionPenalty.CalculatePenalty ⟨p, c, H, W⟩ f = 0 := by
  have hscan : scanUsedFeatures (W.insert f).1 H = true := by
    rw [scanUsedFeatures_iff]
    exact ⟨S, hS, by rw [IntSet.toFinset_insert]; exact hcov⟩
  simp only [InteractionPenalty.CalculatePenalty, hscan, if_true]
  split <;> rfl

theorem calculatePenalty_covered_witness :
    IntSet.ofList [1, 2, 3] ∈ [IntSet.ofList [7], IntSet.ofList [1, 2, 3]] ∧
    (IntSet.ofList [1]).toFinset ∪ {(2 : CInt).val} ⊆ (IntSet.ofList [1, 2, 3]).toFinset ∧
    InteractionPenalty.CalculatePenalty
      ⟨Double.c0_1, Double.c0_05, [IntSet.ofList [7], IntSet.ofList [1, 2, 3]],
        IntSet.ofList [1]⟩ 2 = 0 :=
  ⟨by decide, by decide,
   calculatePenalty_covered Double.c0_1 Double.c0_05
     [IntSet.ofList [7], IntSet.ofList [1, 2, 3]]
     (IntSet.ofList [1]) 2 (IntSet.ofList [1, 2, 3]) (by decide) (by decide)⟩

/-- C3: in the state reached by `AddCurrentTreeFeature(f)`, from any state and for any
feature `f`, both `CalculatePenalty(f)` and `CalculateComplexityPenalty(f)` return `0.0`. -/
theorem penalties_zero_after_addCurrentTreeFeature (self : InteractionPenalty) (f : CInt) :
    (self.AddCurrentTreeFeature f).CalculatePenalty f = 0 ∧
    (self.AddCurrentTreeFeature f).CalculateComplexityPenalty f = 0 := by
  have hmem : f.val ∈ (self.current_tree_features_.insert f).1.toFinset := by
    rw [IntSet.toFinset_insert]
    exact Finset.mem_union_right _ (Finset.mem_singleton_self f.val)
  have hold : ((self.current_tree_features_.insert f).1.insert f).2 = false :=
    (IntSet.insert_snd_false _ f).mpr hmem
  constructor
  · simp only [InteractionPenalty.CalculatePenalty, InteractionPenalty.AddCurrentTreeFeature,
      hold, Bool.not_false, if_true]
  · simp only [InteractionPenalty.CalculateComplexityPenalty,
      InteractionPenalty.AddCurrentTreeFeature, hold, Bool.not_false, if_true]

/-- C4, as amended: for every working set `W` of size `k`, feature `f` not in `W` and
complexity coefficient `c`, `CalculateComplexityPenalty(f)` returns, under every history
`H`, the `double` product `complexity_ * (k + 1)`: the exact product rounded once to the
nearest double, and the exact product whenever that number is a double; and two states
that differ only in their history give the same `CalculateComplexityPenalty` for every
feature `g`. -/
theorem calculateComplexityPenalty_ignores_history (p c : Double) (H H' : List IntSet)
    (W : IntSet) (f : CInt) (k : Nat) (hk : W.toFinset.card = k) (hf : f.val ∉ W.toFinset) :
    InteractionPenalty.CalculateComplexityPenalty ⟨p, c, H, W⟩ f
      = c * Double.ofNat (k + 1) ∧
    (∀ (r : Double) (x : ℚ), c.toRat? = some x →
      r.toRat? = some (x * ((k + 1 : Nat) : ℚ)) →
      (InteractionPenalty.CalculateComplexityPenalty ⟨p, c, H, W⟩ f).toRat?
        = some (x * ((k + 1 : Nat) : ℚ))) ∧
    ∀ g : CInt, InteractionPenalty.CalculateComplexityPenalty ⟨p, c, H, W⟩ g
      = InteractionPenalty.CalculateComplexityPenalty ⟨p, c, H', W⟩ g := by
  have hval : InteractionPenalty.CalculateComplexityPenalty ⟨p, c, H, W⟩ f
      = c * Double.ofNat (k + 1) := by
    rw [calculateComplexityPenalty_of_new p c H W f hf, hk]
  refine ⟨hval, ?_, fun g => rfl⟩
  intro r x hc hr
  rw [hval]
  have hlt : k + 1 < 2 ^ 53 := by
    rw [← hk]
    exact IntSet.card_succ_lt W
  exact Double.mul_ofNat_toRat_exact c r (k + 1) hlt x hc hr

theorem calculateComplexityPenalty_ignores_history_witness :
    (IntSet.ofList [1]).toFinset.card = 1 ∧ (2 : CInt).val ∉ (IntSet.ofList [1]).toFinset ∧
    (InteractionPenalty.CalculateComplexityPenalty
        ⟨Double.c0_1, Double.c0_05, [IntSet.ofList [1, 2, 3]], IntSet.ofList [1]⟩ 2
        = Double.c0_05 * Double.ofNat (1 + 1) ∧
     ∀ g : CInt, InteractionPenalty.CalculateComplexityPenalty
        ⟨Double.c0_1, Double.c0_05, [IntSet.ofList [1, 2, 3]], IntSet.ofList [1]⟩ g
        = InteractionPenalty.CalculateComplexityPenalty
        ⟨Double.c0_1, Double.c0_05, [], IntSet.ofList [1]⟩ g) :=
  ⟨by decide, by decide,
   (calculateComplexityPenalty_ignores_history Double.c0_1 Double.c0_05
     [IntSet.ofList [1, 2, 3]] [] (IntSet.ofList [1]) 2 1 (by decide) (by decide)).1,
   (calculateComplexityPenalty_ignores_history Double.c0_1 Double.c0_05
     [IntSet.ofList [1, 2, 3]] [] (IntSet.ofList [1]) 2 1 (by decide) (by decide)).2.2⟩

/-- C4 as stated fails: with `complexity_ = 0.05`, working set `{1, 2}` (size 2) and
candidate `3`, the value returned is not the exact product `0.05 * 3`: the
multiplication rounds it to `0x1.3333333333334p-3`. -/
theorem calculateComplexityPenalty_not_exact :
    (IntSet.ofList [1, 2]).toFinset.card = 2 ∧
    (3 : CInt).val ∉ (IntSet.ofList [1, 2]).toFinset ∧
    (InteractionPenalty.CalculateComplexityPenalty
        ⟨Double.c0_1, Double.c0_05, [IntSet.ofList [1, 2, 3]], IntSet.ofList [1, 2]⟩
        3).toRat?
      ≠ Double.c0_05.toRat?.map (fun x => x * ((2 + 1 : Nat) : ℚ)) := by
  refine ⟨by decide, by decide, ?_⟩
  intro h
  have hv : (InteractionPenalty.CalculateComplexityPenalty
      ⟨Double.c0_1, Double.c0_05, [IntSet.ofList [1, 2, 3]], IntSet.ofList [1, 2]⟩ 3).val
      = DoubleVal.finite false (0x13333333333334 * 2 ^ 1019) := by decide!
  have hu := Double.units_eq_of_toRat Double.c0_05 _ false false
    (0x1999999999999a * 2 ^ 1017) (0x13333333333334 * 2 ^ 1019) (2 + 1) rfl hv h
  exact absurd hu (by decide!)

/-! ## The mutators -/

theorem IntSet.empty_iff (s : IntSet) : s.empty = true ↔ s.toFinset = ∅ := by
  simp [IntSet.empty, IntSet.toFinset, List.isEmpty_iff]

/-- C5: for every state whose working set `W` is non-empty, `UpdateUsedFeatures` yields
the old history with exactly one entry appended at the end, equal to `W` (earlier entries
unchanged, same order), and the working set is still `W`. -/
theorem updateUsedFeatures_appends (self : InteractionPenalty)
    (hne : self.current_tree_features_.toFinset ≠ ∅) :
    self.UpdateUsedFeatures.used_features_
      = self.used_features_ ++ [self.current_tree_features_] ∧
    self.UpdateUsedFeatures.current_tree_features_ = self.current_tree_features_ := by
  have h : self.current_tree_features_.empty = false := by
    rw [← Bool.not_eq_true, IntSet.empty_iff]
    exact hne
  simp [InteractionPenalty.UpdateUsedFeatures, h]

theorem updateUsedFeatures_appends_witness :
    (IntSet.ofList [1, 2]).toFinset ≠ ∅ ∧
    (InteractionPenalty.UpdateUsedFeatures
        ⟨Double.c0_1, Double.c0_05, [IntSet.ofList [5]], IntSet.ofList [1, 2]⟩).used_features_
      = [IntSet.ofList [5]] ++ [IntSet.ofList [1, 2]] ∧
    (InteractionPenalty.UpdateUsedFeatures
        ⟨Double.c0_1, Double.c0_05, [IntSet.ofList [5]], IntSet.ofList [1, 2]⟩).current_tree_features_
      = IntSet.ofList [1, 2] :=
  ⟨by decide,
   updateUsedFeatures_appends ⟨Double.c0_1, Double.c0_05, [IntSet.ofList [5]], IntSet.ofList [1, 2]⟩
     (by decide)⟩

/-- C6: for every state whose working set is empty, `UpdateUsedFeatures` is a no-op:
the history (its length and every entry) and the working set are unchanged. -/
theorem updateUsedFeatures_empty_noop (self : InteractionPenalty)
    (hempty : self.current_tree_features_.toFinset = ∅) :
    self.UpdateUsedFeatures = self ∧
    self.UpdateUsedFeatures.used_features_ = self.used_features_ ∧
    self.UpdateUsedFeatures.used_features_.length = self.used_features_.length ∧
    self.UpdateUsedFeatures.current_tree_features_ = self.current_tree_features_ := by
  have h : self.current_tree_features_.empty = true := (IntSet.empty_iff _).mpr hempty
  have hs : self.UpdateUsedFeatures = self := by
    simp [InteractionPenalty.UpdateUsedFeatures, h]
  rw [hs]
  exact ⟨rfl, rfl, rfl, rfl⟩

theorem updateUsedFeatures_empty_noop_witness :
    IntSet.nil.toFinset = ∅ ∧
    InteractionPenalty.UpdateUsedFeatures ⟨Double.c0_1, Double.c0_05, [IntSet.ofList [5]], IntSet.nil⟩
      = ⟨Double.c0_1, Double.c0_05, [IntSet.ofList [5]], IntSet.nil⟩ :=
  ⟨by decide,
   (updateUsedFeatures_empty_noop ⟨Double.c0_1, Double.c0_05, [IntSet.ofList [5]], IntSet.nil⟩
     (by decide)).1⟩

theorem used_features_prefix_apply (op : Op) (s : InteractionPenalty) (h : op ≠ Op.Init) :
    s.used_features_ <+: (op.apply s).used_features_ := by
  cases op with
  | Init => exact absurd rfl h
  | CalculatePenalty f => exact List.prefix_refl _
  | CalculateComplexityPenalty f => exact List.prefix_refl _
  | UpdateUsedFeatures =>
    simp only [Op.apply, InteractionPenalty.UpdateUsedFeatures]
    split
    · exact List.prefix_append _ _
    · exact List.prefix_refl _
  | ClearCurrentTreeFeatures => exact List.prefix_refl _
  | AddCurrentTreeFeature f => exact List.prefix_refl _

/-- C7: archived entries are immutable: for every state and every finite sequence of
calls without `Init`, the history before the sequence is a prefix of the history after
it. In particular, from a fresh tracker, after `AddCurrentTreeFeature(1)`,
`UpdateUsedFeatures`, `ClearCurrentTreeFeatures`, `AddCurrentTreeFeature(2)` the first
history entry is `{1}`. -/
theorem used_features_prefix_runOps (ops : List Op) (s : InteractionPenalty)
    (h : ∀ op ∈ ops, op ≠ Op.Init) :
    s.used_features_ <+: (runOps ops s).used_features_ ∧
    ∀ p c : Double,
      (runOps [Op.AddCurrentTreeFeature 1, Op.UpdateUsedFeatures, Op.ClearCurrentTreeFeatures,
          Op.AddCurrentTreeFeature 2] (InteractionPenalty.new p c)).used_features_[0]?
        = some (IntSet.ofList [1]) := by
  refine ⟨?_, fun p c => rfl⟩
  induction ops generalizing s with
  | nil => exact List.prefix_refl _
  | cons op rest ih =>
    have h1 := used_features_prefix_apply op s (h op (List.mem_cons_self op rest))
    have h2 := ih (op.apply s) (fun o ho => h o (List.mem_cons_of_mem op ho))
    exact List.IsPrefix.trans h1 h2

theorem used_features_prefix_runOps_witness :
    (∀ op ∈ [Op.AddCurrentTreeFeature 3, Op.CalculatePenalty 4, Op.UpdateUsedFeatures,
        Op.ClearCurrentTreeFeatures, Op.UpdateUsedFeatures, Op.AddCurrentTreeFeature 1,
        Op.CalculateComplexityPenalty 1, Op.UpdateUsedFeatures], op ≠ Op.Init) ∧
    [IntSet.ofList [1, 2]] <+:
      (runOps [Op.AddCurrentTreeFeature 3, Op.CalculatePenalty 4, Op.UpdateUsedFeatures,
        Op.ClearCurrentTreeFeatures, Op.UpdateUsedFeatures, Op.AddCurrentTreeFeature 1,
        Op.CalculateComplexityPenalty 1, Op.UpdateUsedFeatures]
        ⟨Double.c0_1, Double.c0_05, [IntSet.ofList [1, 2]], IntSet.ofList [2]⟩).used_features_ :=
  ⟨by decide,
   (used_features_prefix_runOps [Op.AddCurrentTreeFeature 3, Op.CalculatePenalty 4,
        Op.UpdateUsedFeatures, Op.ClearCurrentTreeFeatures, Op.UpdateUsedFeatures,
        Op.AddCurrentTreeFeature 1, Op.CalculateComplexityPenalty 1, Op.UpdateUsedFeatures]
      ⟨Double.c0_1, Double.c0_05, [IntSet.ofList [1, 2]], IntSet.ofList [2]⟩ (by decide)).1⟩

/-- C8: for every state, `Init` yields an empty history and an empty working set with
both coefficients unchanged, and `Init` is idempotent. -/
theorem init_resets_and_idempotent (self : InteractionPenalty) :
    self.Init.used_features_ = [] ∧
    self.Init.current_tree_features_.toFinset = ∅ ∧
    self.Init.penalty_ = self.penalty_ ∧
    self.Init.complexity_ = self.complexity_ ∧
    self.Init.Init = self.Init :=
  ⟨rfl, rfl, rfl, rfl, rfl⟩

/-- C9: for every prior state and every feature `f`, immediately after `Init`,
`CalculatePenalty(f)` returns exactly `penalty_ * 1` and `CalculateComplexityPenalty(f)`
returns exactly `complexity_ * 1`; these products are the coefficients themselves. -/
theorem penalties_after_init (self : InteractionPenalty) (f : CInt) :
    self.Init.CalculatePenalty f = self.penalty_ * 1 ∧
    self.Init.CalculateComplexityPenalty f = self.complexity_ * 1 ∧
    self.Init.CalculatePenalty f = self.penalty_ ∧
    self.Init.CalculateComplexityPenalty f = self.complexity_ := by
  have hs : self.Init = ⟨self.penalty_, self.complexity_, [], IntSet.nil⟩ := rfl
  have hf : f.val ∉ IntSet.nil.toFinset := Finset.not_mem_empty _
  have hcard : IntSet.nil.toFinset.card + 1 = 1 := rfl
  have h1 : self.Init.CalculatePenalty f = self.penalty_ * Double.ofNat 1 := by
    rw [hs, calculatePenalty_of_novel _ _ _ _ _ hf
      (fun ⟨S, hS, _⟩ => absurd hS (List.not_mem_nil S)), hcard]
  have h2 : self.Init.CalculateComplexityPenalty f = self.complexity_ * Double.ofNat 1 := by
    rw [hs, calculateComplexityPenalty_of_new _ _ _ _ _ hf, hcard]
  refine ⟨h1, h2, ?_, ?_⟩
  · rw [h1]
    exact Double.mul_ofNat_one _
  · rw [h2]
    exact Double.mul_ofNat_one _

/-- C10: for every state, `ClearCurrentTreeFeatures` yields an empty working set and
leaves the history and both coefficients exactly as they were; it is idempotent. -/
theorem clearCurrentTreeFeatures_frame (self : InteractionPenalty) :
    self.ClearCurrentTreeFeatures.current_tree_features_.toFinset = ∅ ∧
    self.ClearCurrentTreeFeatures.used_features_ = self.used_features_ ∧
    self.ClearCurrentTreeFeatures.penalty_ = self.penalty_ ∧
    self.ClearCurrentTreeFeatures.complexity_ = self.complexity_ ∧
    self.ClearCurrentTreeFeatures.ClearCurrentTreeFeatures = self.ClearCurrentTreeFeatures :=
  ⟨rfl, rfl, rfl, rfl, rfl⟩

/-! ## AddCurrentTreeFeature and later trees -/

/-- C11: for every state with working set `W` and every feature `f` (any `int`),
`AddCurrentTreeFeature(f)` yields working set `W ∪ {f}` and leaves the history unchanged;
if `f` is already in `W` the state is unchanged; the size of the working set grows by
exactly one when `f` is new and by zero otherwise; and calling it twice equals calling
it once. -/
theorem addCurrentTreeFeature_inserts (self : InteractionPenalty) (f : CInt) :
    (self.AddCurrentTreeFeature f).current_tree_features_.toFinset
      = self.current_tree_features_.toFinset ∪ {f.val} ∧
    (self.AddCurrentTreeFeature f).used_features_ = self.used_features_ ∧
    (f.val ∈ self.current_tree_features_.toFinset → self.AddCurrentTreeFeature f = self) ∧
    (f.val ∉ self.current_tree_features_.toFinset →
      (self.AddCurrentTreeFeature f).current_tree_features_.size
        = self.current_tree_features_.size + 1) ∧
    (f.val ∈ self.current_tree_features_.toFinset →
      (self.AddCurrentTreeFeature f).current_tree_features_.size
        = self.current_tree_features_.size) ∧
    (self.AddCurrentTreeFeature f).AddCurrentTreeFeature f = self.AddCurrentTreeFeature f := by
  have hmem : f.val ∈ (self.current_tree_features_.insert f).1.toFinset := by
    rw [IntSet.toFinset_insert]
    exact Finset.mem_union_right _ (Finset.mem_singleton_self f.val)
  refine ⟨IntSet.toFinset_insert _ f, rfl, ?_, ?_, ?_, ?_⟩
  · intro hf
    simp only [InteractionPenalty.AddCurrentTreeFeature,
      IntSet.insert_fst_of_mem self.current_tree_features_ f hf]
  · intro hf
    exact IntSet.size_insert_of_new self.current_tree_features_ f hf
  · intro hf
    simp only [InteractionPenalty.AddCurrentTreeFeature,
      IntSet.insert_fst_of_mem self.current_tree_features_ f hf]
  · simp only [InteractionPenalty.AddCurrentTreeFeature,
      IntSet.insert_fst_of_mem (self.current_tree_features_.insert f).1 f hmem]

theorem addCurrentTreeFeature_inserts_witness :
    ((-3 : CInt).val ∈ (IntSet.ofList [-3, 4]).toFinset ∧
      InteractionPenalty.AddCurrentTreeFeature
          ⟨Double.c0_1, Double.c0_05, [IntSet.ofList [5]], IntSet.ofList [-3, 4]⟩ (-3)
        = ⟨Double.c0_1, Double.c0_05, [IntSet.ofList [5]], IntSet.ofList [-3, 4]⟩) ∧
    ((-7 : CInt).val ∉ (IntSet.ofList [-3, 4]).toFinset ∧
      (InteractionPenalty.AddCurrentTreeFeature
          ⟨Double.c0_1, Double.c0_05, [IntSet.ofList [5]], IntSet.ofList [-3, 4]⟩
          (-7)).current_tree_features_.size
        = (IntSet.ofList [-3, 4]).size + 1) :=
  ⟨⟨by decide,
    (addCurrentTreeFeature_inserts
      ⟨Double.c0_1, Double.c0_05, [IntSet.ofList [5]], IntSet.ofList [-3, 4]⟩ (-3)).2.2.1
      (by decide)⟩,
   ⟨by decide,
    (addCurrentTreeFeature_inserts
      ⟨Double.c0_1, Double.c0_05, [IntSet.ofList [5]], IntSet.ofList [-3, 4]⟩ (-7)).2.2.2.1
      (by decide)⟩⟩

/-- C12: sub-combinations of an archived tree are never penalised in later trees: for
every state with non-empty working set `W`, after `UpdateUsedFeatures`, then
`ClearCurrentTreeFeatures`, then any finite sequence of `AddCurrentTreeFeature(g)` calls
with every `g` in `W`, `CalculatePenalty(f)` returns `0.0` for every `f` in `W`. -/
theorem calculatePenalty_zero_within_archived_tree (self : InteractionPenalty)
    (hne : self.current_tree_features_.toFinset ≠ ∅) (gs : List CInt)
    (hgs : ∀ g ∈ gs, g.val ∈ self.current_tree_features_.toFinset) (f : CInt)
    (hf : f.val ∈ self.current_tree_features_.toFinset) :
    (runOps (gs.map Op.AddCurrentTreeFeature)
      self.UpdateUsedFeatures.ClearCurrentTreeFeatures).CalculatePenalty f = 0 := by
  have hempty : self.current_tree_features_.empty = false := by
    rw [← Bool.not_eq_true, IntSet.empty_iff]
    exact hne
  have hupd : self.UpdateUsedFeatures.ClearCurrentTreeFeatures
      = ⟨self.penalty_, self.complexity_,
          self.used_features_ ++ [self.current_tree_features_], IntSet.nil⟩ := by
    simp [InteractionPenalty.UpdateUsedFeatures, InteractionPenalty.ClearCurrentTreeFeatures,
      hempty, IntSet.clear]
  have hrun := runOps_addCurrentTreeFeature gs self.UpdateUsedFeatures.ClearCurrentTreeFeatures
  rw [hupd] at hrun ⊢
  obtain ⟨_, _, hH, hW⟩ := hrun
  simp only at hH hW
  generalize runOps (gs.map Op.AddCurrentTreeFeature)
    ⟨self.penalty_, self.complexity_,
      self.used_features_ ++ [self.current_tree_features_], IntSet.nil⟩ = t at hH hW ⊢
  cases t with
  | mk p c H W =>
    simp only at hH hW
    apply calculatePenalty_of_covered
    refine ⟨self.current_tree_features_, ?_, ?_⟩
    · rw [hH]
      exact List.mem_append_right _ (List.mem_singleton_self _)
    · rw [hW]
      intro z hz
      simp only [Finset.mem_union, Finset.mem_singleton, List.mem_toFinset,
        List.mem_map] at hz
      rcases hz with (hz | ⟨g, hg, hgz⟩) | hz
      · simp [IntSet.toFinset, IntSet.nil] at hz
      · rw [← hgz]
        exact hgs g hg
      · rw [hz]; exact hf

theorem calculatePenalty_zero_within_archived_tree_witness :
    (IntSet.ofList [1, 2, 3]).toFinset ≠ ∅ ∧
    (∀ g ∈ [(3 : CInt), 1, 3], g.val ∈ (IntSet.ofList [1, 2, 3]).toFinset) ∧
    (2 : CInt).val ∈ (IntSet.ofList [1, 2, 3]).toFinset ∧
    (runOps ([(3 : CInt), 1, 3].map Op.AddCurrentTreeFeature)
      (InteractionPenalty.ClearCurrentTreeFeatures (InteractionPenalty.UpdateUsedFeatures
        ⟨Double.c0_1, Double.c0_05, [IntSet.ofList [5]],
          IntSet.ofList [1, 2, 3]⟩))).CalculatePenalty 2
      = 0 :=
  ⟨by decide, by decide, by decide,
   calculatePenalty_zero_within_archived_tree
     ⟨Double.c0_1, Double.c0_05, [IntSet.ofList [5]], IntSet.ofList [1, 2, 3]⟩ (by decide)
     [3, 1, 3] (by decide) 2 (by decide)⟩

/-- C13: if the penalty coefficient is zero then `CalculatePenalty(f)` returns `0.0` for
every state and feature, and if the complexity coefficient is zero then
`CalculateComplexityPenalty(f)` returns `0.0` for every state and feature. For a
coefficient `-0.0` the result compares equal to `0.0` as well. -/
theorem zero_coefficients_give_zero (a : Double) (H : List IntSet) (W : IntSet) (f : CInt) :
    InteractionPenalty.CalculatePenalty ⟨0, a, H, W⟩ f = 0 ∧
    InteractionPenalty.CalculateComplexityPenalty ⟨a, 0, H, W⟩ f = 0 ∧
    (InteractionPenalty.CalculatePenalty ⟨Double.negZero, a, H, W⟩ f).isZero = true ∧
    (InteractionPenalty.CalculateComplexityPenalty ⟨a, Double.negZero, H, W⟩ f).isZero
      = true := by
  have hz : ∀ n : Nat, n < 2 ^ 53 → (0 : Double) * Double.ofNat n = 0 := by
    intro n hn
    exact Double.ext_val (Double.zero_mul_ofNat 0 false n rfl hn)
  have hnz : ∀ n : Nat, n < 2 ^ 53 → (Double.negZero * Double.ofNat n).isZero = true := by
    intro n hn
    have h := Double.zero_mul_ofNat Double.negZero true n rfl hn
    simp only [Double.isZero, h, beq_self_eq_true]
  have hlt := IntSet.card_succ_lt W
  by_cases hf : f.val ∈ W.toFinset
  · rw [calculatePenalty_of_mem _ _ _ _ _ hf, calculateComplexityPenalty_of_mem _ _ _ _ _ hf,
      calculatePenalty_of_mem _ _ _ _ _ hf, calculateComplexityPenalty_of_mem _ _ _ _ _ hf]
    exact ⟨rfl, rfl, rfl, rfl⟩
  · rw [calculateComplexityPenalty_of_new _ _ _ _ _ hf,
      calculateComplexityPenalty_of_new _ _ _ _ _ hf]
    refine ⟨?_, hz _ hlt, ?_, hnz _ hlt⟩
    · by_cases hcov : ∃ S ∈ H, W.toFinset ∪ {f.val} ⊆ S.toFinset
      · exact calculatePenalty_of_covered _ _ _ _ _ hcov
      · rw [calculatePenalty_of_novel _ _ _ _ _ hf hcov]
        exact hz _ hlt
    · by_cases hcov : ∃ S ∈ H, W.toFinset ∪ {f.val} ⊆ S.toFinset
      · rw [calculatePenalty_of_covered _ _ _ _ _ hcov]
        rfl
      · rw [calculatePenalty_of_novel _ _ _ _ _ hf hcov]
        exact hnz _ hlt

/-- C14: end-to-end scenario with `penalty_ = 0.1` and `complexity_ = 0.05`: after
`Init`, `AddCurrentTreeFeature(1)`, `AddCurrentTreeFeature(2)`, `UpdateUsedFeatures` the
history is exactly `[{1,2}]`; after a following `ClearCurrentTreeFeatures`,
`CalculatePenalty(1)` returns `0.0` and `CalculatePenalty(3)` returns `0.1`. -/
theorem end_to_end_scenario (H : List IntSet) (W : IntSet) :
    ((((InteractionPenalty.Init ⟨Double.c0_1, Double.c0_05, H, W⟩).AddCurrentTreeFeature
        1).AddCurrentTreeFeature 2).UpdateUsedFeatures).used_features_
      = [IntSet.ofList [1, 2]] ∧
    (((((InteractionPenalty.Init ⟨Double.c0_1, Double.c0_05, H, W⟩).AddCurrentTreeFeature
        1).AddCurrentTreeFeature 2).UpdateUsedFeatures).ClearCurrentTreeFeatures).CalculatePenalty
        1 = 0 ∧
    (((((InteractionPenalty.Init ⟨Double.c0_1, Double.c0_05, H, W⟩).AddCurrentTreeFeature
        1).AddCurrentTreeFeature 2).UpdateUsedFeatures).ClearCurrentTreeFeatures).CalculatePenalty
        3 = Double.c0_1 := by
  have hs : ((((InteractionPenalty.Init ⟨Double.c0_1, Double.c0_05, H, W⟩).AddCurrentTreeFeature
        1).AddCurrentTreeFeature 2).UpdateUsedFeatures).ClearCurrentTreeFeatures
      = ⟨Double.c0_1, Double.c0_05, [IntSet.ofList [1, 2]], IntSet.nil⟩ := rfl
  refine ⟨rfl, ?_, ?_⟩
  · rw [hs]
    exact calculatePenalty_of_covered _ _ _ _ _ ⟨IntSet.ofList [1, 2], by decide, by decide⟩
  · rw [hs, calculatePenalty_of_novel _ _ _ _ _ (by decide) (by decide)]
    exact Double.mul_ofNat_one _

/-- C16: the history check of `CalculatePenalty` is the merge scan `std::includes` over
the ascending element sequences of the archived entry and the candidate combination; for
strictly ascending `A` and `B` that scan returns `true` exactly when every element of `B`
is an element of `A` (so also for `B` empty, for `A` empty, and for `A = B`). -/
theorem includes_decides_inclusion (A B : List Int)
    (hA : A.Pairwise (· < ·)) (hB : B.Pairwise (· < ·)) :
    (includes A B = true ↔ ∀ x ∈ B, x ∈ A) ∧
    includes A [] = true ∧
    (includes [] B = true ↔ B = []) ∧
    includes A A = true ∧
    (∀ S T : IntSet, scanUsedFeatures T [S] = includes S.elems T.elems) := by
  refine ⟨includes_iff_subset A B hA hB, ?_, ?_, ?_, ?_⟩
  · cases A <;> rfl
  · cases B with
    | nil => simp [includes]
    | cons b bs => simp [includes]
  · exact (includes_iff_subset A A hA hA).mpr (fun x hx => hx)
  · intro S T
    simp only [scanUsedFeatures]
    cases includes S.elems T.elems <;> rfl

theorem includes_decides_inclusion_witness :
    [(1 : Int), 2, 3].Pairwise (· < ·) ∧ [(1 : Int), 3].Pairwise (· < ·) ∧
    (includes [1, 2, 3] [1, 3] = true ↔ ∀ x ∈ [(1 : Int), 3], x ∈ [(1 : Int), 2, 3]) :=
  ⟨by decide, by decide,
   (includes_decides_inclusion [1, 2, 3] [1, 3] (by decide) (by decide)).1⟩

theorem used_features_nonempty_apply (op : Op) (s : InteractionPenalty)
    (h : ∀ S ∈ s.used_features_, S.toFinset ≠ ∅) :
    ∀ S ∈ (op.apply s).used_features_, S.toFinset ≠ ∅ := by
  cases op with
  | Init =>
    intro S hS
    simp [Op.apply, InteractionPenalty.Init] at hS
  | CalculatePenalty f => exact h
  | CalculateComplexityPenalty f => exact h
  | UpdateUsedFeatures =>
    intro S hS
    simp only [Op.apply, InteractionPenalty.UpdateUsedFeatures] at hS
    cases hempty : s.current_tree_features_.empty with
    | true =>
      simp only [hempty, Bool.not_true, Bool.false_eq_true, if_false] at hS
      exact h S hS
    | false =>
      simp only [hempty, Bool.not_false, if_true] at hS
      rcases List.mem_append.mp hS with hS | hS
      · exact h S hS
      · rw [List.mem_singleton.mp hS]
        intro hcontra
        rw [(IntSet.empty_iff _).mpr hcontra] at hempty
        exact absurd hempty (by decide)
  | ClearCurrentTreeFeatures => exact h
  | AddCurrentTreeFeature f => exact h

theorem used_features_nonempty_runOps (ops : List Op) (s : InteractionPenalty)
    (h : ∀ S ∈ s.used_features_, S.toFinset ≠ ∅) :
    ∀ S ∈ (runOps ops s).used_features_, S.toFinset ≠ ∅ := by
  induction ops generalizing s with
  | nil => exact h
  | cons op rest ih => exact ih (op.apply s) (used_features_nonempty_apply op s h)

/-- C17: in every state reachable from a freshly constructed tracker by any finite
sequence of `Init`, `ClearCurrentTreeFeatures`, `AddCurrentTreeFeature`,
`UpdateUsedFeatures` and query calls, every entry of the history is a non-empty set. -/
theorem reachable_history_entries_nonempty (p c : Double) (ops : List Op) :
    ∀ S ∈ (runOps ops (InteractionPenalty.new p c)).used_features_, S.toFinset ≠ ∅ := by
  apply used_features_nonempty_runOps
  intro S hS
  simp [InteractionPenalty.new] at hS

theorem reachable_history_entries_nonempty_witness :
    IntSet.ofList [4, 7] ∈
      (runOps [Op.UpdateUsedFeatures, Op.AddCurrentTreeFeature 9, Op.UpdateUsedFeatures,
          Op.Init, Op.UpdateUsedFeatures, Op.AddCurrentTreeFeature 7, Op.CalculatePenalty 1,
          Op.AddCurrentTreeFeature 4, Op.UpdateUsedFeatures, Op.ClearCurrentTreeFeatures,
          Op.UpdateUsedFeatures]
        (InteractionPenalty.new Double.c0_1 Double.c0_05)).used_features_ ∧
    (IntSet.ofList [4, 7]).toFinset ≠ ∅ :=
  ⟨by decide,
   reachable_history_entries_nonempty Double.c0_1 Double.c0_05
     [Op.UpdateUsedFeatures, Op.AddCurrentTreeFeature 9, Op.UpdateUsedFeatures,
      Op.Init, Op.UpdateUsedFeatures, Op.AddCurrentTreeFeature 7, Op.CalculatePenalty 1,
      Op.AddCurrentTreeFeature 4, Op.UpdateUsedFeatures, Op.ClearCurrentTreeFeatures,
      Op.UpdateUsedFeatures]
     (IntSet.ofList [4, 7]) (by decide)⟩

/-! ## Order properties of `CalculatePenalty` -/

/-- With a coefficient `p` such that `0.0 <= p`, a history that holds every entry of
another one gives a penalty that is not larger. -/
theorem calculatePenalty_le_of_history_subset (p c : Double) (H H' : List IntSet)
    (W : IntSet) (f : CInt) (hp : (0 : Double) ≤ p) (hsub : ∀ S ∈ H, S ∈ H') :
    InteractionPenalty.CalculatePenalty ⟨p, c, H', W⟩ f
      ≤ InteractionPenalty.CalculatePenalty ⟨p, c, H, W⟩ f := by
  have hlt := IntSet.card_succ_lt W
  by_cases hf : f.val ∈ W.toFinset
  · rw [calculatePenalty_of_mem p c H' W f hf, calculatePenalty_of_mem p c H W f hf]
    exact Double.zero_le_zero
  · by_cases hcov : ∃ S ∈ H, W.toFinset ∪ {f.val} ⊆ S.toFinset
    · have hcov' : ∃ S ∈ H', W.toFinset ∪ {f.val} ⊆ S.toFinset := by
        obtain ⟨S, hS, hS2⟩ := hcov
        exact ⟨S, hsub S hS, hS2⟩
      rw [calculatePenalty_of_covered p c H' W f hcov',
        calculatePenalty_of_covered p c H W f hcov]
      exact Double.zero_le_zero
    · rw [calculatePenalty_of_novel p c H W f hf hcov]
      by_cases hcov' : ∃ S ∈ H', W.toFinset ∪ {f.val} ⊆ S.toFinset
      · rw [calculatePenalty_of_covered p c H' W f hcov']
        exact Double.zero_le_mul_ofNat p hp _ (Nat.le_add_left 1 _) hlt
      · rw [calculatePenalty_of_novel p c H' W f hf hcov']
        exact Double.mul_ofNat_mono p hp _ _ (Nat.le_add_left 1 _) (Nat.le_refl _) hlt

/-- Two histories with the same entries give the same penalty. -/
theorem calculatePenalty_eq_of_history_same (p c : Double) (H H' : List IntSet)
    (W : IntSet) (f : CInt) (hsub : ∀ S ∈ H, S ∈ H') (hsub' : ∀ S ∈ H', S ∈ H) :
    InteractionPenalty.CalculatePenalty ⟨p, c, H', W⟩ f
      = InteractionPenalty.CalculatePenalty ⟨p, c, H, W⟩ f := by
  by_cases hf : f.val ∈ W.toFinset
  · rw [calculatePenalty_of_mem p c H' W f hf, calculatePenalty_of_mem p c H W f hf]
  · by_cases hcov : ∃ S ∈ H, W.toFinset ∪ {f.val} ⊆ S.toFinset
    · have hcov' : ∃ S ∈ H', W.toFinset ∪ {f.val} ⊆ S.toFinset := by
        obtain ⟨S, hS, hS2⟩ := hcov
        exact ⟨S, hsub S hS, hS2⟩
      rw [calculatePenalty_of_covered p c H' W f hcov',
        calculatePenalty_of_covered p c H W f hcov]
    · have hcov' : ¬ ∃ S ∈ H', W.toFinset ∪ {f.val} ⊆ S.toFinset := by
        rintro ⟨S, hS, hS2⟩
        exact hcov ⟨S, hsub' S hS, hS2⟩
      rw [calculatePenalty_of_novel p c H W f hf hcov,
        calculatePenalty_of_novel p c H' W f hf hcov']

/-- Two states with the same coefficients and working set, one history holding every
entry of the other, stay so related after the same call. -/
theorem history_subset_apply (op : Op) (s t : InteractionPenalty)
    (hp : t.penalty_ = s.penalty_) (hc : t.complexity_ = s.complexity_)
    (hW : t.current_tree_features_ = s.current_tree_features_)
    (hH : ∀ S ∈ s.used_features_, S ∈ t.used_features_) :
    (op.apply t).penalty_ = (op.apply s).penalty_ ∧
    (op.apply t).complexity_ = (op.apply s).complexity_ ∧
    (op.apply t).current_tree_features_ = (op.apply s).current_tree_features_ ∧
    ∀ S ∈ (op.apply s).used_features_, S ∈ (op.apply t).used_features_ := by
  cases op with
  | Init =>
    refine ⟨hp, hc, rfl, ?_⟩
    intro S hS
    simp [Op.apply, InteractionPenalty.Init] at hS
  | CalculatePenalty f => exact ⟨hp, hc, hW, hH⟩
  | CalculateComplexityPenalty f => exact ⟨hp, hc, hW, hH⟩
  | UpdateUsedFeatures =>
    have het : t.current_tree_features_.empty = s.current_tree_features_.empty := by rw [hW]
    cases hempty : s.current_tree_features_.empty with
    | true =>
      have hs : s.UpdateUsedFeatures = s := by
        simp [InteractionPenalty.UpdateUsedFeatures, hempty]
      have ht : t.UpdateUsedFeatures = t := by
        simp [InteractionPenalty.UpdateUsedFeatures, het, hempty]
      simp only [Op.apply, hs, ht]
      exact ⟨hp, hc, hW, hH⟩
    | false =>
      have hs : s.UpdateUsedFeatures
          = { s with used_features_ := s.used_features_ ++ [s.current_tree_features_] } := by
        simp [InteractionPenalty.UpdateUsedFeatures, hempty]
      have ht : t.UpdateUsedFeatures
          = { t with used_features_ := t.used_features_ ++ [t.current_tree_features_] } := by
        simp [InteractionPenalty.UpdateUsedFeatures, het, hempty]
      simp only [Op.apply, hs, ht]
      refine ⟨hp, hc, hW, ?_⟩
      intro S hS
      rcases List.mem_append.mp hS with hS | hS
      · exact List.mem_append_left _ (hH S hS)
      · rw [hW]
        exact List.mem_append_right _ hS
  | ClearCurrentTreeFeatures => exact ⟨hp, hc, rfl, hH⟩
  | AddCurrentTreeFeature f =>
    refine ⟨hp, hc, ?_, hH⟩
    simp only [Op.apply, InteractionPenalty.AddCurrentTreeFeature, hW]

theorem history_subset_runOps (ops : List Op) (s t : InteractionPenalty)
    (hp : t.penalty_ = s.penalty_) (hc : t.complexity_ = s.complexity_)
    (hW : t.current_tree_features_ = s.current_tree_features_)
    (hH : ∀ S ∈ s.used_features_, S ∈ t.used_features_) :
    (runOps ops t).penalty_ = (runOps ops s).penalty_ ∧
    (runOps ops t).complexity_ = (runOps ops s).complexity_ ∧
    (runOps ops t).current_tree_features_ = (runOps ops s).current_tree_features_ ∧
    ∀ S ∈ (runOps ops s).used_features_, S ∈ (runOps ops t).used_features_ := by
  induction ops generalizing s t with
  | nil => exact ⟨hp, hc, hW, hH⟩
  | cons op rest ih =>
    obtain ⟨h1, h2, h3, h4⟩ := history_subset_apply op s t hp hc hW hH
    exact ih (op.apply s) (op.apply t) h1 h2 h3 h4

theorem used_features_subset_updateUsedFeatures (s : InteractionPenalty) :
    ∀ S ∈ s.used_features_, S ∈ s.UpdateUsedFeatures.used_features_ := by
  intro S hS
  unfold InteractionPenalty.UpdateUsedFeatures
  split
  · exact List.mem_append_left _ hS
  · exact hS

theorem updateUsedFeatures_frame (s : InteractionPenalty) :
    s.UpdateUsedFeatures.penalty_ = s.penalty_ ∧
    s.UpdateUsedFeatures.complexity_ = s.complexity_ ∧
    s.UpdateUsedFeatures.current_tree_features_ = s.current_tree_features_ := by
  unfold InteractionPenalty.UpdateUsedFeatures
  split <;> exact ⟨rfl, rfl, rfl⟩

theorem runOps_penalty_ (ops : List Op) (s : InteractionPenalty) :
    (runOps ops s).penalty_ = s.penalty_ := by
  induction ops generalizing s with
  | nil => rfl
  | cons op rest ih =>
    simp only [runOps]
    rw [ih (op.apply s)]
    cases op with
    | Init => rfl
    | CalculatePenalty f => rfl
    | CalculateComplexityPenalty f => rfl
    | UpdateUsedFeatures => exact (updateUsedFeatures_frame s).1
    | ClearCurrentTreeFeatures => rfl
    | AddCurrentTreeFeature f => rfl

/-- C18, as amended: converse of suppression: when the penalty coefficient is non-zero,
`CalculatePenalty(f)` is `0.0` if and only if `f` is already in the working set `W` or
some history entry contains `W ∪ {f}`; otherwise the result is the `double` product
`penalty_ * (|W| + 1)`, the exact product rounded once to the nearest double. -/
theorem calculatePenalty_zero_iff (p c : Double) (H : List IntSet) (W : IntSet) (f : CInt)
    (hp : p.isZero = false) :
    (InteractionPenalty.CalculatePenalty ⟨p, c, H, W⟩ f = 0 ↔
      (f.val ∈ W.toFinset ∨ ∃ S ∈ H, W.toFinset ∪ {f.val} ⊆ S.toFinset)) ∧
    ((InteractionPenalty.CalculatePenalty ⟨p, c, H, W⟩ f).isZero = true ↔
      (f.val ∈ W.toFinset ∨ ∃ S ∈ H, W.toFinset ∪ {f.val} ⊆ S.toFinset)) ∧
    (¬ (f.val ∈ W.toFinset ∨ ∃ S ∈ H, W.toFinset ∪ {f.val} ⊆ S.toFinset) →
      InteractionPenalty.CalculatePenalty ⟨p, c, H, W⟩ f
        = p * Double.ofNat (W.toFinset.card + 1)) := by
  have hnovel : ¬ (f.val ∈ W.toFinset ∨ ∃ S ∈ H, W.toFinset ∪ {f.val} ⊆ S.toFinset) →
      InteractionPenalty.CalculatePenalty ⟨p, c, H, W⟩ f
        = p * Double.ofNat (W.toFinset.card + 1) := by
    intro h
    exact calculatePenalty_of_novel p c H W f (fun hf => h (Or.inl hf))
      (fun hcov => h (Or.inr hcov))
  have hzero : (f.val ∈ W.toFinset ∨ ∃ S ∈ H, W.toFinset ∪ {f.val} ⊆ S.toFinset) →
      InteractionPenalty.CalculatePenalty ⟨p, c, H, W⟩ f = 0 := by
    rintro (hf | hcov)
    · exact calculatePenalty_of_mem p c H W f hf
    · exact calculatePenalty_of_covered p c H W f hcov
  have hconv : (InteractionPenalty.CalculatePenalty ⟨p, c, H, W⟩ f).isZero = true →
      (f.val ∈ W.toFinset ∨ ∃ S ∈ H, W.toFinset ∪ {f.val} ⊆ S.toFinset) := by
    intro hz
    by_contra h
    rw [hnovel h, Double.isZero_mul_ofNat p hp _ (Nat.le_add_left 1 _)
      (IntSet.card_succ_lt W)] at hz
    exact absurd hz (by decide)
  refine ⟨⟨?_, hzero⟩, ⟨hconv, ?_⟩, hnovel⟩
  · intro h0
    apply hconv
    rw [h0]
    rfl
  · intro h
    rw [hzero h]
    rfl

theorem calculatePenalty_zero_iff_witness :
    Double.c0_1.isZero = false ∧
    (InteractionPenalty.CalculatePenalty
        ⟨Double.c0_1, Double.c0_05, [IntSet.ofList [1, 2]], IntSet.ofList [1]⟩ 3 = 0 ↔
      ((3 : CInt).val ∈ (IntSet.ofList [1]).toFinset ∨
        ∃ S ∈ [IntSet.ofList [1, 2]],
          (IntSet.ofList [1]).toFinset ∪ {(3 : CInt).val} ⊆ S.toFinset)) :=
  ⟨by decide!,
   (calculatePenalty_zero_iff Double.c0_1 Double.c0_05 [IntSet.ofList [1, 2]]
     (IntSet.ofList [1]) 3 (by decide!)).1⟩

/-- C18 as stated fails in its last part: with the non-zero coefficient `0.1`, working
set `{4, 5}`, candidate `6` and the history `[{1, 2}]`, the candidate is not suppressed
but the value returned is not the exact product `0.1 * 3`. -/
theorem calculatePenalty_unsuppressed_not_exact :
    Double.c0_1.isZero = false ∧
    ¬ ((6 : CInt).val ∈ (IntSet.ofList [4, 5]).toFinset ∨
        ∃ S ∈ [IntSet.ofList [1, 2]],
          (IntSet.ofList [4, 5]).toFinset ∪ {(6 : CInt).val} ⊆ S.toFinset) ∧
    (InteractionPenalty.CalculatePenalty
        ⟨Double.c0_1, Double.c0_05, [IntSet.ofList [1, 2]], IntSet.ofList [4, 5]⟩ 6).toRat?
      ≠ Double.c0_1.toRat?.map
          (fun x => x * (((IntSet.ofList [4, 5]).toFinset.card + 1 : Nat) : ℚ)) := by
  refine ⟨by decide!, by decide, ?_⟩
  intro h
  have hv : (InteractionPenalty.CalculatePenalty
      ⟨Double.c0_1, Double.c0_05, [IntSet.ofList [1, 2]], IntSet.ofList [4, 5]⟩ 6).val
      = DoubleVal.finite false (0x13333333333334 * 2 ^ 1020) := by decide!
  have hu := Double.units_eq_of_toRat Double.c0_1 _ false false
    (0x1999999999999a * 2 ^ 1018) (0x13333333333334 * 2 ^ 1020)
    ((IntSet.ofList [4, 5]).toFinset.card + 1) rfl hv h
  exact absurd hu (by decide!)

/-- C19: growing the tree never lowers a candidate's penalty: for a non-negative penalty
coefficient, a fixed history `H`, working sets `W ⊆ W'` and a feature `f` not in `W'`,
`CalculatePenalty(f)` with working set `W` is at most `CalculatePenalty(f)` with working
set `W'`; a combination that is novel for `W` stays novel for `W'`; in particular the
penalty of `f` does not drop when another feature `g` is added to the tree. -/
theorem calculatePenalty_mono_working_set (p c : Double) (H : List IntSet) (W W' : IntSet)
    (f : CInt) (hp : (0 : Double) ≤ p) (hsub : W.toFinset ⊆ W'.toFinset)
    (hf : f.val ∉ W'.toFinset) :
    InteractionPenalty.CalculatePenalty ⟨p, c, H, W⟩ f
      ≤ InteractionPenalty.CalculatePenalty ⟨p, c, H, W'⟩ f ∧
    ((¬ ∃ S ∈ H, W.toFinset ∪ {f.val} ⊆ S.toFinset) →
      ¬ ∃ S ∈ H, W'.toFinset ∪ {f.val} ⊆ S.toFinset) ∧
    (∀ g : CInt, g ≠ f → f.val ∉ W.toFinset →
      InteractionPenalty.CalculatePenalty ⟨p, c, H, W⟩ f
        ≤ (InteractionPenalty.AddCurrentTreeFeature ⟨p, c, H, W⟩ g).CalculatePenalty f) := by
  have key : ∀ V V' : IntSet, V.toFinset ⊆ V'.toFinset → f.val ∉ V'.toFinset →
      InteractionPenalty.CalculatePenalty ⟨p, c, H, V⟩ f
        ≤ InteractionPenalty.CalculatePenalty ⟨p, c, H, V'⟩ f := by
    intro V V' hVV hfV'
    have hfV : f.val ∉ V.toFinset := fun h => hfV' (hVV h)
    have hlt' := IntSet.card_succ_lt V'
    by_cases hcov' : ∃ S ∈ H, V'.toFinset ∪ {f.val} ⊆ S.toFinset
    · have hcov : ∃ S ∈ H, V.toFinset ∪ {f.val} ⊆ S.toFinset := by
        obtain ⟨S, hS, hS2⟩ := hcov'
        exact ⟨S, hS, (Finset.union_subset_union_left hVV).trans hS2⟩
      rw [calculatePenalty_of_covered p c H V f hcov,
        calculatePenalty_of_covered p c H V' f hcov']
      exact Double.zero_le_zero
    · rw [calculatePenalty_of_novel p c H V' f hfV' hcov']
      by_cases hcov : ∃ S ∈ H, V.toFinset ∪ {f.val} ⊆ S.toFinset
      · rw [calculatePenalty_of_covered p c H V f hcov]
        exact Double.zero_le_mul_ofNat p hp _ (Nat.le_add_left 1 _) hlt'
      · rw [calculatePenalty_of_novel p c H V f hfV hcov]
        have hcard : V.toFinset.card ≤ V'.toFinset.card := Finset.card_le_card hVV
        exact Double.mul_ofNat_mono p hp _ _ (Nat.le_add_left 1 _)
          (Nat.add_le_add_right hcard 1) hlt'
  refine ⟨key W W' hsub hf, ?_, ?_⟩
  · rintro hnovel ⟨S, hS, hS2⟩
    exact hnovel ⟨S, hS, (Finset.union_subset_union_left hsub).trans hS2⟩
  · intro g hg hfW
    apply key W (W.insert g).1
    · rw [IntSet.toFinset_insert]
      exact Finset.subset_union_left
    · rw [IntSet.toFinset_insert]
      intro hmem
      rcases Finset.mem_union.mp hmem with h | h
      · exact hfW h
      · apply hg
        have hval : f.val = g.val := Finset.mem_singleton.mp h
        cases f
        cases g
        simp only at hval
        subst hval
        rfl

theorem calculatePenalty_mono_working_set_witness :
    ((0 : Double) ≤ Double.c0_1) ∧
    (IntSet.ofList [1]).toFinset ⊆ (IntSet.ofList [1, 2]).toFinset ∧
    (3 : CInt).val ∉ (IntSet.ofList [1, 2]).toFinset ∧
    InteractionPenalty.CalculatePenalty
        ⟨Double.c0_1, Double.c0_05, [IntSet.ofList [1, 3]], IntSet.ofList [1]⟩ 3
      ≤ InteractionPenalty.CalculatePenalty
        ⟨Double.c0_1, Double.c0_05, [IntSet.ofList [1, 3]], IntSet.ofList [1, 2]⟩ 3 :=
  ⟨by decide!, by decide, by decide,
   (calculatePenalty_mono_working_set Double.c0_1 Double.c0_05 [IntSet.ofList [1, 3]]
     (IntSet.ofList [1]) (IntSet.ofList [1, 2]) 3 (by decide!) (by decide) (by decide)).1⟩

/-- C20: extending the history never raises a penalty and its order is irrelevant: for a
non-negative penalty coefficient, a fixed working set `W` and every feature `f`, if every
entry of `H` also occurs in `H'` then `CalculatePenalty(f)` under `H'` is at most
`CalculatePenalty(f)` under `H`; two histories with the same set of entries give equal
results; and after any common sequence of later calls, the state in which
`UpdateUsedFeatures` was called first never gives a larger `CalculatePenalty`. -/
theorem calculatePenalty_antitone_history (p c : Double) (H H' : List IntSet) (W : IntSet)
    (f : CInt) (hp : (0 : Double) ≤ p) (hsub : ∀ S ∈ H, S ∈ H') :
    InteractionPenalty.CalculatePenalty ⟨p, c, H', W⟩ f
      ≤ InteractionPenalty.CalculatePenalty ⟨p, c, H, W⟩ f ∧
    ((∀ S ∈ H', S ∈ H) →
      InteractionPenalty.CalculatePenalty ⟨p, c, H', W⟩ f
        = InteractionPenalty.CalculatePenalty ⟨p, c, H, W⟩ f) ∧
    (∀ ops : List Op,
      (runOps ops (InteractionPenalty.UpdateUsedFeatures ⟨p, c, H, W⟩)).CalculatePenalty f
        ≤ (runOps ops ⟨p, c, H, W⟩).CalculatePenalty f) := by
  refine ⟨calculatePenalty_le_of_history_subset p c H H' W f hp hsub, ?_, ?_⟩
  · intro hsub'
    exact calculatePenalty_eq_of_history_same p c H H' W f hsub hsub'
  · intro ops
    have hfr := updateUsedFeatures_frame ⟨p, c, H, W⟩
    obtain ⟨h1, h2, h3, h4⟩ := history_subset_runOps ops ⟨p, c, H, W⟩
      (InteractionPenalty.UpdateUsedFeatures ⟨p, c, H, W⟩) hfr.1 hfr.2.1 hfr.2.2
      (used_features_subset_updateUsedFeatures ⟨p, c, H, W⟩)
    have hpen : (runOps ops ⟨p, c, H, W⟩).penalty_ = p := runOps_penalty_ ops ⟨p, c, H, W⟩
    generalize runOps ops (InteractionPenalty.UpdateUsedFeatures ⟨p, c, H, W⟩) = t
      at h1 h2 h3 h4 ⊢
    generalize runOps ops ⟨p, c, H, W⟩ = s at h1 h2 h3 h4 hpen ⊢
    cases s with
    | mk ps cs Hs Ws =>
      cases t with
      | mk pt ct Ht Wt =>
        simp only at h1 h2 h3 h4 hpen
        subst h1 h2 h3
        subst hpen
        exact calculatePenalty_le_of_history_subset _ _ Hs Ht _ f hp h4

theorem calculatePenalty_antitone_history_witness :
    ((0 : Double) ≤ Double.c0_1) ∧
    (∀ S ∈ [IntSet.ofList [1, 2]],
      S ∈ [IntSet.ofList [2, 3], IntSet.ofList [1, 2], IntSet.ofList [2, 3]]) ∧
    InteractionPenalty.CalculatePenalty
        ⟨Double.c0_1, Double.c0_05,
          [IntSet.ofList [2, 3], IntSet.ofList [1, 2], IntSet.ofList [2, 3]],
          IntSet.ofList [2]⟩ 3
      ≤ InteractionPenalty.CalculatePenalty
        ⟨Double.c0_1, Double.c0_05, [IntSet.ofList [1, 2]], IntSet.ofList [2]⟩ 3 :=
  ⟨by decide!, by decide,
   (calculatePenalty_antitone_history Double.c0_1 Double.c0_05 [IntSet.ofList [1, 2]]
     [IntSet.ofList [2, 3], IntSet.ofList [1, 2], IntSet.ofList [2, 3]] (IntSet.ofList [2]) 3
     (by decide!) (by decide)).1⟩

end LightGBM
